import Mathlib

/-!
A shallow embedding of the single-instrument limit order book implemented in
`src/orderbook.hpp` and `src/orderbook.cpp`, together with a verification of
its stated behavioural properties.

Modelling conventions:
* Prices are `double` in the source but are only ever used through the
  comparisons `<=`, `>=`, `<` of the two `std::map` comparators and map-key
  equality; every price the program manipulates is a finite value on which
  those operations coincide with the exact order on the rationals/integers,
  so we embed prices as `Int` (the market-order sentinels `1e9` and `0.0`
  are exactly the integers `1000000000` and `0`).
* Quantities are C++ `int`; the engine only ever decreases a quantity by a
  `min` of two existing quantities, so no machine overflow arises on the
  executions the spec talks about, and we embed quantities as `Int` (the
  sign checks `qty <= 0` need negative values).
* Order ids come from the `uint64_t` counter `next_id`, initialised to `1`
  and post-incremented at each accepted submission; wraparound would need
  2^64 submissions and is out of scope, so ids are embedded as `Nat`.
* The `ts` timestamp fields of `Order` and `Trade` are write-only audit
  data, never read by any engine logic; they are omitted.
* `std::map<double, std::deque<Order>>` (one per side, with opposite
  comparators) is embedded as an association list sorted in iteration
  order; `std::unordered_map` (the order index) as an association list
  whose entry order is irrelevant; `std::deque` and `std::vector` as
  lists.
-/

namespace LOB

/-- Embeds `struct Order` (orderbook.hpp): id, limit price, remaining
quantity.  The audit timestamp `ts` is never read and is omitted. -/
structure Order where
  id : Nat
  price : Int
  qty : Int
deriving DecidableEq, Repr

/-- Embeds `struct Trade` (orderbook.hpp): buyer id, seller id, execution
price, traded quantity.  The audit timestamp `ts` is omitted. -/
structure Trade where
  buyer_id : Nat
  seller_id : Nat
  price : Int
  qty : Int
deriving DecidableEq, Repr

/-- One price level: the FIFO deque of resting orders at one price. -/
abbrev Level := List Order

/-- One side of the book: the price-sorted map from price to level, as an
association list in the map's iteration order (bids descending, asks
ascending). -/
abbrev Ladder := List (Int × Level)

/-- The order index `std::unordered_map<uint64_t, std::pair<double,bool>>`:
entries `(id, price, is_bid)`. -/
abbrev IndexT := List (Nat × Int × Bool)

/-- Embeds `class OrderBook`'s data members. -/
structure OrderBook where
  bids : Ladder
  asks : Ladder
  order_index : IndexT
  trades : List Trade
  next_id : Nat
deriving DecidableEq, Repr

/-- The freshly constructed book: empty containers, `next_id = 1`. -/
def emptyBook : OrderBook := ⟨[], [], [], [], 1⟩

/-- The crossing condition of the matching loops: an incoming bid consumes
ask levels with `it->first <= inc.price`; an incoming ask consumes bid
levels with `it->first >= inc.price`. -/
def cross (is_bid : Bool) (incPrice p : Int) : Bool :=
  if is_bid then decide (p ≤ incPrice) else decide (incPrice ≤ p)

/-- Result of a matching loop: remaining incoming quantity, remaining
container, trades recorded (in order), ids erased from the order index. -/
structure MRes (α : Type) where
  qty : Int
  rest : α
  trades : List Trade
  removed : List Nat
deriving DecidableEq, Repr

/-- How `OrderBook::match` records a trade: the buy-side id is always the
first (`buyer_id`) field — `(inc.id, resting.id, ...)` when the incoming
order is a bid, `(resting.id, inc.id, ...)` when it is an ask — at the
level price `it->first`. -/
def mkTrade (is_bid : Bool) (incId restingId : Nat) (p t : Int) : Trade :=
  if is_bid then ⟨incId, restingId, p, t⟩ else ⟨restingId, incId, p, t⟩

/-- The inner `while (inc.qty > 0 && !level.empty())` loop of
`OrderBook::match`: repeatedly trade against the front of the level;
`trade_qty = min(inc.qty, resting.qty)`; a trade is recorded at the level
price; a resting order reaching quantity 0 is popped and its index entry
erased. -/
def matchLevel (is_bid : Bool) (incId : Nat) (p : Int) (q : Int) :
    Level → MRes Level
  | [] => ⟨q, [], [], []⟩
  | r :: rest =>
    if 0 < q then
      let t := min q r.qty
      if r.qty - t = 0 then
        let res := matchLevel is_bid incId p (q - t) rest
        ⟨res.qty, res.rest, mkTrade is_bid incId r.id p t :: res.trades,
          r.id :: res.removed⟩
      else
        ⟨q - t, { r with qty := r.qty - t } :: rest,
          [mkTrade is_bid incId r.id p t], []⟩
    else ⟨q, r :: rest, [], []⟩

/-- The outer level loop of `OrderBook::match`: walk the opposing ladder
from its best price while the incoming order has quantity and the level
price crosses; a level emptied by matching is erased from the ladder. -/
def matchLadder (is_bid : Bool) (incId : Nat) (incPrice : Int) (q : Int) :
    Ladder → MRes Ladder
  | [] => ⟨q, [], [], []⟩
  | (p, lvl) :: rest =>
    if 0 < q ∧ cross is_bid incPrice p = true then
      let r1 := matchLevel is_bid incId p q lvl
      if r1.rest.isEmpty then
        let r2 := matchLadder is_bid incId incPrice r1.qty rest
        ⟨r2.qty, r2.rest, r1.trades ++ r2.trades, r1.removed ++ r2.removed⟩
      else
        ⟨r1.qty, (p, r1.rest) :: rest, r1.trades, r1.removed⟩
    else ⟨q, (p, lvl) :: rest, [], []⟩

/-- `order_index.erase(id)`: drop the entry with the given key. -/
def idxErase (id : Nat) (idx : IndexT) : IndexT :=
  idx.filter (fun e => !(e.1 == id))

/-- The sequence of `order_index.erase` calls performed while matching
(one per fully filled resting order). -/
def idxEraseMany (rm : List Nat) (idx : IndexT) : IndexT :=
  idx.filter (fun e => !(rm.contains e.1))

/-- `order_index[id] = {price, is_bid}` (insert-or-assign). -/
def idxInsert (id : Nat) (price : Int) (is_bid : Bool) (idx : IndexT) :
    IndexT :=
  (id, price, is_bid) :: idxErase id idx

/-- `order_index.find(id)`. -/
def idxFind (idx : IndexT) (id : Nat) : Option (Int × Bool) :=
  (idx.find? (fun e => e.1 == id)).map (fun e => e.2)

/-- `book.find(price)` on a ladder. -/
def ladderFind (p : Int) (L : Ladder) : Option Level :=
  (L.find? (fun pl => pl.1 == p)).map (fun pl => pl.2)

/-- The side-dependent `std::map` comparator: `std::greater<>` for bids
(descending iteration), `std::less<>` for asks (ascending iteration).
`sideLt b a c = true` iff key `a` is iterated before key `c`. -/
def sideLt (is_bid : Bool) (a c : Int) : Bool :=
  if is_bid then decide (c < a) else decide (a < c)

/-- `book[inc.price].push_back(inc)`: append the order to the deque at its
price key, creating the level at the comparator-determined position if
absent. -/
def ladderInsert (lt : Int → Int → Bool) (o : Order) : Ladder → Ladder
  | [] => [(o.price, [o])]
  | (q, lvl) :: rest =>
    if lt o.price q then (o.price, [o]) :: (q, lvl) :: rest
    else if o.price == q then (q, lvl ++ [o]) :: rest
    else (q, lvl) :: ladderInsert lt o rest

/-- The opposing ladder selected at the top of `OrderBook::match`. -/
def OrderBook.oppLadder (b : OrderBook) (is_bid : Bool) : Ladder :=
  if is_bid then b.asks else b.bids

/-- The ladder on the incoming order's own side. -/
def OrderBook.sameLadder (b : OrderBook) (is_bid : Bool) : Ladder :=
  if is_bid then b.bids else b.asks

/-- Write back the opposing ladder after matching. -/
def OrderBook.setOpp (b : OrderBook) (is_bid : Bool) (L : Ladder) :
    OrderBook :=
  if is_bid then { b with asks := L } else { b with bids := L }

/-- Write back the same-side ladder after a residual insertion. -/
def OrderBook.setSame (b : OrderBook) (is_bid : Bool) (L : Ladder) :
    OrderBook :=
  if is_bid then { b with bids := L } else { b with asks := L }

/-- Embeds `OrderBook::add_limit`: reject `qty <= 0` with sentinel id `0`;
otherwise take a fresh id, match against the opposing ladder, and rest any
positive residual at `price` (registering it in the order index). -/
def add_limit (b : OrderBook) (price qty : Int) (is_bid : Bool) :
    Nat × OrderBook :=
  if qty ≤ 0 then (0, b)
  else
    let id := b.next_id
    let r := matchLadder is_bid id price qty (b.oppLadder is_bid)
    let b1 : OrderBook :=
      { b.setOpp is_bid r.rest with
        trades := b.trades ++ r.trades
        order_index := idxEraseMany r.removed b.order_index
        next_id := id + 1 }
    if 0 < r.qty then
      let o : Order := ⟨id, price, r.qty⟩
      (id,
        { b1.setSame is_bid (ladderInsert (sideLt is_bid) o (b1.sameLadder is_bid)) with
          order_index := idxInsert id price is_bid b1.order_index })
    else (id, b1)

/-- The synthetic extreme price of `OrderBook::add_market`:
`inc.price = is_bid ? 1e9 : 0.0`. -/
def mktPrice (is_bid : Bool) : Int :=
  if is_bid then 1000000000 else 0

/-- Embeds `OrderBook::add_market`: reject `qty <= 0` with sentinel `0`;
otherwise match at the synthetic extreme price and drop any residual (the
order never rests and is never indexed). -/
def add_market (b : OrderBook) (qty : Int) (is_bid : Bool) :
    Nat × OrderBook :=
  if qty ≤ 0 then (0, b)
  else
    let id := b.next_id
    let r := matchLadder is_bid id (mktPrice is_bid) qty (b.oppLadder is_bid)
    (id,
      { b.setOpp is_bid r.rest with
        trades := b.trades ++ r.trades
        order_index := idxEraseMany r.removed b.order_index
        next_id := id + 1 })

/-- `level.erase(order_it)` for the first order with the target id. -/
def cancelLevel (id : Nat) (lvl : Level) : Level :=
  lvl.eraseP (fun o => o.id == id)

/-- The ladder after `OrderBook::cancel` erases the order (and, if its
level becomes empty, the level) at the indexed price. -/
def ladderCancel (p : Int) (id : Nat) : Ladder → Ladder
  | [] => []
  | (q, lvl) :: rest =>
    if q == p then
      let lvl' := cancelLevel id lvl
      if lvl'.isEmpty then rest else (q, lvl') :: rest
    else (q, lvl) :: ladderCancel p id rest

/-- Embeds `OrderBook::cancel`: look the id up in the order index; if
absent return `false` unchanged; otherwise scan the indexed level for the
order, erase it (dropping the level when emptied) and the index entry and
return `true`; if the ladder scan falls through, erase the index entry and
return `false`. -/
def cancel (b : OrderBook) (id : Nat) : Bool × OrderBook :=
  match idxFind b.order_index id with
  | none => (false, b)
  | some (price, is_bid) =>
    let ladder := if is_bid then b.bids else b.asks
    match ladderFind price ladder with
    | some lvl =>
      if (lvl.find? (fun o => o.id == id)).isSome then
        let ladder' := ladderCancel price id ladder
        let b' : OrderBook :=
          if is_bid then { b with bids := ladder' } else { b with asks := ladder' }
        (true, { b' with order_index := idxErase id b.order_index })
      else (false, { b with order_index := idxErase id b.order_index })
    | none => (false, { b with order_index := idxErase id b.order_index })

/-- Embeds `OrderBook::clear`: empty both ladders, the index and the trade
log; `next_id` is deliberately not reset. -/
def OrderBook.clear (b : OrderBook) : OrderBook :=
  { b with bids := [], asks := [], order_index := [], trades := [] }

/-- Embeds `OrderBook::total_orders`: the size of the order index. -/
def total_orders (b : OrderBook) : Nat := b.order_index.length

/-- The number of level-deque entries `OrderBook::cancel` examines in its
`for (auto order_it = level.begin(); ...)` scan: the 1-based position of
the cancelled order in its level (or the whole level length if the scan
falls through). -/
def cancelCost (b : OrderBook) (id : Nat) : Nat :=
  match idxFind b.order_index id with
  | none => 0
  | some (price, is_bid) =>
    match ladderFind price (if is_bid then b.bids else b.asks) with
    | none => 0
    | some lvl =>
      if (lvl.find? (fun o => o.id == id)).isSome then
        lvl.findIdx (fun o => o.id == id) + 1
      else lvl.length

/-- The quantity `OrderBook::cancel id` removes from the book: the quantity
of the order its scan erases, `0` when the cancel fails. -/
def cancelTarget (b : OrderBook) (id : Nat) : Int :=
  match idxFind b.order_index id with
  | none => 0
  | some (price, is_bid) =>
    match ladderFind price (if is_bid then b.bids else b.asks) with
    | none => 0
    | some lvl =>
      match lvl.find? (fun o => o.id == id) with
      | none => 0
      | some o => o.qty

/-- The residual quantity `add_market` computes internally and drops
(`inc.qty` after `match` returns); `0` for a rejected submission. -/
def marketResidual (b : OrderBook) (qty : Int) (is_bid : Bool) : Int :=
  if qty ≤ 0 then 0
  else (matchLadder is_bid b.next_id (mktPrice is_bid) qty (b.oppLadder is_bid)).qty

/-- One driver operation: the mutating calls of the public interface. -/
inductive Op where
  | limit (price qty : Int) (is_bid : Bool)
  | market (qty : Int) (is_bid : Bool)
  | cancel (id : Nat)
  | clear
deriving DecidableEq, Repr

/-- Ghost accounting for the conservation property: total accepted
submitted quantity, total dropped market residual, total quantity removed
by successful cancels. -/
structure Acct where
  submitted : Int
  dropped : Int
  cancelled : Int
deriving DecidableEq, Repr

/-- The zero ledger. -/
def emptyAcct : Acct := ⟨0, 0, 0⟩

/-- Execute one operation, updating the book and the ghost ledger. -/
def step (s : OrderBook × Acct) (op : Op) : OrderBook × Acct :=
  match op with
  | .limit p q bid =>
    ((add_limit s.1 p q bid).2,
      { s.2 with submitted := s.2.submitted + (if 0 < q then q else 0) })
  | .market q bid =>
    ((add_market s.1 q bid).2,
      { s.2 with
        submitted := s.2.submitted + (if 0 < q then q else 0)
        dropped := s.2.dropped + marketResidual s.1 q bid })
  | .cancel id =>
    ((cancel s.1 id).2,
      { s.2 with
        cancelled := s.2.cancelled +
          (if (cancel s.1 id).1 then cancelTarget s.1 id else 0) })
  | .clear => (s.1.clear, s.2)

/-- Run a sequence of operations from the empty book and zero ledger. -/
def run (ops : List Op) : OrderBook × Acct :=
  ops.foldl step (emptyBook, emptyAcct)

/-- All resting order ids of a ladder, in ladder-then-queue order. -/
def ladderIds : Ladder → List Nat
  | [] => []
  | pl :: rest => pl.2.map Order.id ++ ladderIds rest

/-- Total resting quantity of one level. -/
def levelQty (lvl : Level) : Int := (lvl.map Order.qty).sum

/-- Total resting quantity of a ladder. -/
def ladderQty : Ladder → Int
  | [] => 0
  | pl :: rest => levelQty pl.2 + ladderQty rest

/-- Total resting quantity of the whole book. -/
def restingTotal (b : OrderBook) : Int := ladderQty b.bids + ladderQty b.asks

/-- Sum of the quantities of a list of trades. -/
def tradesQty (ts : List Trade) : Int := (ts.map Trade.qty).sum

/-- Sum of the quantities of all recorded trades. -/
def tradesTotal (b : OrderBook) : Int := tradesQty b.trades

/-- The best (highest) bid price, if any: the first key of the descending
bid ladder. -/
def bestBid (b : OrderBook) : Option Int := (b.bids.map Prod.fst).head?

/-- The best (lowest) ask price, if any: the first key of the ascending
ask ladder. -/
def bestAsk (b : OrderBook) : Option Int := (b.asks.map Prod.fst).head?

/-- All resting ids of the book. -/
def bookIds (b : OrderBook) : List Nat := ladderIds b.bids ++ ladderIds b.asks

/-- The keys of the order index. -/
def idxKeys (idx : IndexT) : List Nat := idx.map (fun e => e.1)

/-- The id of the resting (passive) party of a trade: the seller when the
incoming order is a bid, the buyer otherwise. -/
def restingSideId (is_bid : Bool) (t : Trade) : Nat :=
  if is_bid then t.seller_id else t.buyer_id

/-- The id of the incoming (aggressor) party of a trade. -/
def incSideId (is_bid : Bool) (t : Trade) : Nat :=
  if is_bid then t.buyer_id else t.seller_id

@[simp] theorem tradesQty_nil : tradesQty [] = 0 := rfl

@[simp] theorem tradesQty_cons (t : Trade) (ts : List Trade) :
    tradesQty (t :: ts) = t.qty + tradesQty ts := by
  simp [tradesQty]

@[simp] theorem tradesQty_append (a b : List Trade) :
    tradesQty (a ++ b) = tradesQty a + tradesQty b := by
  simp [tradesQty]

@[simp] theorem levelQty_nil : levelQty [] = 0 := rfl

@[simp] theorem levelQty_cons (o : Order) (l : Level) :
    levelQty (o :: l) = o.qty + levelQty l := by
  simp [levelQty]

@[simp] theorem levelQty_append (a b : Level) :
    levelQty (a ++ b) = levelQty a + levelQty b := by
  simp [levelQty]

@[simp] theorem ladderQty_nil : ladderQty [] = 0 := rfl

@[simp] theorem ladderQty_cons (pl : Int × Level) (L : Ladder) :
    ladderQty (pl :: L) = levelQty pl.2 + ladderQty L := rfl

@[simp] theorem ladderIds_nil : ladderIds [] = [] := rfl

@[simp] theorem ladderIds_cons (pl : Int × Level) (L : Ladder) :
    ladderIds (pl :: L) = pl.2.map Order.id ++ ladderIds L := rfl

@[simp] theorem mkTrade_price (ib : Bool) (i ri : Nat) (p t : Int) :
    (mkTrade ib i ri p t).price = p := by
  cases ib <;> rfl

@[simp] theorem mkTrade_qty (ib : Bool) (i ri : Nat) (p t : Int) :
    (mkTrade ib i ri p t).qty = t := by
  cases ib <;> rfl

@[simp] theorem mkTrade_restingSideId (ib : Bool) (i ri : Nat) (p t : Int) :
    restingSideId ib (mkTrade ib i ri p t) = ri := by
  cases ib <;> rfl

@[simp] theorem mkTrade_incSideId (ib : Bool) (i ri : Nat) (p t : Int) :
    incSideId ib (mkTrade ib i ri p t) = i := by
  cases ib <;> rfl

/-! ### Equation lemmas for the inner matching loop -/

theorem matchLevel_nil (ib : Bool) (i : Nat) (p q : Int) :
    matchLevel ib i p q [] = ⟨q, [], [], []⟩ := rfl

theorem matchLevel_cons_stop (ib : Bool) (i : Nat) (p q : Int) (r : Order)
    (rest : Level) (h : ¬ 0 < q) :
    matchLevel ib i p q (r :: rest) = ⟨q, r :: rest, [], []⟩ := by
  simp [matchLevel, h]

theorem matchLevel_cons_full (ib : Bool) (i : Nat) (p q : Int) (r : Order)
    (rest : Level) (h : 0 < q) (h2 : r.qty - min q r.qty = 0) :
    matchLevel ib i p q (r :: rest) =
      ⟨(matchLevel ib i p (q - min q r.qty) rest).qty,
        (matchLevel ib i p (q - min q r.qty) rest).rest,
        mkTrade ib i r.id p (min q r.qty) ::
          (matchLevel ib i p (q - min q r.qty) rest).trades,
        r.id :: (matchLevel ib i p (q - min q r.qty) rest).removed⟩ := by
  simp [matchLevel, h, h2]

theorem matchLevel_cons_part (ib : Bool) (i : Nat) (p q : Int) (r : Order)
    (rest : Level) (h : 0 < q) (h2 : ¬ r.qty - min q r.qty = 0) :
    matchLevel ib i p q (r :: rest) =
      ⟨q - min q r.qty, { r with qty := r.qty - min q r.qty } :: rest,
        [mkTrade ib i r.id p (min q r.qty)], []⟩ := by
  simp [matchLevel, h, h2]

/-! ### Properties of the inner matching loop -/

/-- The incoming quantity is conserved by one level: remainder plus the
recorded trade quantities equals the initial quantity. -/
theorem matchLevel_conserve (ib : Bool) (i : Nat) (p : Int) :
    ∀ (lvl : Level) (q : Int),
      (matchLevel ib i p q lvl).qty + tradesQty (matchLevel ib i p q lvl).trades = q := by
  intro lvl
  induction lvl with
  | nil => intro q; simp [matchLevel_nil]
  | cons r rest ih =>
    intro q
    by_cases h : 0 < q
    · by_cases h2 : r.qty - min q r.qty = 0
      · rw [matchLevel_cons_full ib i p q r rest h h2]
        have := ih (q - min q r.qty)
        dsimp only
        simp only [tradesQty_cons, mkTrade_qty]
        omega
      · rw [matchLevel_cons_part ib i p q r rest h h2]
        dsimp only
        simp only [tradesQty_cons, tradesQty_nil, mkTrade_qty]
        omega
    · rw [matchLevel_cons_stop ib i p q r rest h]
      dsimp only
      simp

/-- The level's resting quantity is conserved: old level total equals the
recorded trade quantities plus the new level total. -/
theorem matchLevel_levelQty (ib : Bool) (i : Nat) (p : Int) :
    ∀ (lvl : Level) (q : Int),
      levelQty lvl =
        tradesQty (matchLevel ib i p q lvl).trades +
          levelQty (matchLevel ib i p q lvl).rest := by
  intro lvl
  induction lvl with
  | nil => intro q; simp [matchLevel_nil]
  | cons r rest ih =>
    intro q
    by_cases h : 0 < q
    · by_cases h2 : r.qty - min q r.qty = 0
      · rw [matchLevel_cons_full ib i p q r rest h h2]
        have := ih (q - min q r.qty)
        dsimp only
        simp only [tradesQty_cons, mkTrade_qty, levelQty_cons]
        omega
      · rw [matchLevel_cons_part ib i p q r rest h h2]
        dsimp only
        simp only [tradesQty_cons, tradesQty_nil, mkTrade_qty, levelQty_cons]
        omega
    · rw [matchLevel_cons_stop ib i p q r rest h]
      dsimp only
      simp

/-- The erased ids followed by the surviving ids are exactly the level's
original ids: matching truncates the FIFO queue from the front only. -/
theorem matchLevel_ids (ib : Bool) (i : Nat) (p : Int) :
    ∀ (lvl : Level) (q : Int),
      (matchLevel ib i p q lvl).removed ++
          (matchLevel ib i p q lvl).rest.map Order.id = lvl.map Order.id := by
  intro lvl
  induction lvl with
  | nil => intro q; simp [matchLevel_nil]
  | cons r rest ih =>
    intro q
    by_cases h : 0 < q
    · by_cases h2 : r.qty - min q r.qty = 0
      · rw [matchLevel_cons_full ib i p q r rest h h2]
        have := ih (q - min q r.qty)
        dsimp only
        simp only [List.cons_append, List.map_cons]
        rw [this]
      · rw [matchLevel_cons_part ib i p q r rest h h2]
        dsimp only
        simp
    · rw [matchLevel_cons_stop ib i p q r rest h]
      dsimp only
      simp

/-- A nonnegative incoming quantity stays nonnegative. -/
theorem matchLevel_qty_nonneg (ib : Bool) (i : Nat) (p : Int) :
    ∀ (lvl : Level) (q : Int), 0 ≤ q → 0 ≤ (matchLevel ib i p q lvl).qty := by
  intro lvl
  induction lvl with
  | nil => intro q hq; simpa [matchLevel_nil] using hq
  | cons r rest ih =>
    intro q hq
    by_cases h : 0 < q
    · by_cases h2 : r.qty - min q r.qty = 0
      · rw [matchLevel_cons_full ib i p q r rest h h2]
        exact ih (q - min q r.qty) (by omega)
      · rw [matchLevel_cons_part ib i p q r rest h h2]
        dsimp only
        omega
    · rw [matchLevel_cons_stop ib i p q r rest h]
      exact hq

/-- The inner loop runs until the incoming order or the level is
exhausted: a surviving level forces remaining quantity `≤ 0`. -/
theorem matchLevel_stop (ib : Bool) (i : Nat) (p : Int) :
    ∀ (lvl : Level) (q : Int),
      (matchLevel ib i p q lvl).rest ≠ [] → (matchLevel ib i p q lvl).qty ≤ 0 := by
  intro lvl
  induction lvl with
  | nil => intro q hne; simp [matchLevel_nil] at hne
  | cons r rest ih =>
    intro q hne
    by_cases h : 0 < q
    · by_cases h2 : r.qty - min q r.qty = 0
      · rw [matchLevel_cons_full ib i p q r rest h h2] at hne ⊢
        exact ih (q - min q r.qty) hne
      · rw [matchLevel_cons_part ib i p q r rest h h2]
        dsimp only
        omega
    · rw [matchLevel_cons_stop ib i p q r rest h]
      dsimp only
      omega

/-- Every trade of one level carries the level price, the incoming id on
its own side, and a resting order's id on the passive side. -/
theorem matchLevel_trades (ib : Bool) (i : Nat) (p : Int) :
    ∀ (lvl : Level) (q : Int) (t : Trade), t ∈ (matchLevel ib i p q lvl).trades →
      t.price = p ∧ incSideId ib t = i ∧ restingSideId ib t ∈ lvl.map Order.id := by
  intro lvl
  induction lvl with
  | nil => intro q t ht; simp [matchLevel_nil] at ht
  | cons r rest ih =>
    intro q t ht
    by_cases h : 0 < q
    · by_cases h2 : r.qty - min q r.qty = 0
      · rw [matchLevel_cons_full ib i p q r rest h h2] at ht
        dsimp only at ht
        rcases List.mem_cons.mp ht with h3 | h3
        · subst h3; simp
        · obtain ⟨hp, hi, hm⟩ := ih (q - min q r.qty) t h3
          exact ⟨hp, hi, by simp [hm]⟩
      · rw [matchLevel_cons_part ib i p q r rest h h2] at ht
        dsimp only at ht
        rcases List.mem_cons.mp ht with h3 | h3
        · subst h3; simp
        · simp at h3
    · rw [matchLevel_cons_stop ib i p q r rest h] at ht
      simp at ht

/-- Every surviving order of one level is an original order of that level,
with its id and price unchanged. -/
theorem matchLevel_rest_mem (ib : Bool) (i : Nat) (p : Int) :
    ∀ (lvl : Level) (q : Int) (o : Order), o ∈ (matchLevel ib i p q lvl).rest →
      ∃ o₀ ∈ lvl, o.id = o₀.id ∧ o.price = o₀.price := by
  intro lvl
  induction lvl with
  | nil => intro q o ho; simp [matchLevel_nil] at ho
  | cons r rest ih =>
    intro q o ho
    by_cases h : 0 < q
    · by_cases h2 : r.qty - min q r.qty = 0
      · rw [matchLevel_cons_full ib i p q r rest h h2] at ho
        dsimp only at ho
        obtain ⟨o₀, hmem, hid, hpr⟩ := ih (q - min q r.qty) o ho
        exact ⟨o₀, List.mem_cons_of_mem r hmem, hid, hpr⟩
      · rw [matchLevel_cons_part ib i p q r rest h h2] at ho
        dsimp only at ho
        rcases List.mem_cons.mp ho with h3 | h3
        · subst h3; exact ⟨r, List.mem_cons_self r rest, rfl, rfl⟩
        · exact ⟨o, List.mem_cons_of_mem r h3, rfl, rfl⟩
    · rw [matchLevel_cons_stop ib i p q r rest h] at ho
      dsimp only at ho
      rcases List.mem_cons.mp ho with h3 | h3
      · subst h3; exact ⟨o, List.mem_cons_self o rest, rfl, rfl⟩
      · exact ⟨o, List.mem_cons_of_mem r h3, rfl, rfl⟩

/-- The ids erased by the inner loop are exactly the ids of the first
`removed.length` orders of the level, in arrival order. -/
theorem matchLevel_removed_take (ib : Bool) (i : Nat) (p : Int) :
    ∀ (lvl : Level) (q : Int),
      (matchLevel ib i p q lvl).removed =
        ((lvl.take (matchLevel ib i p q lvl).removed.length).map Order.id) := by
  intro lvl
  induction lvl with
  | nil => intro q; simp [matchLevel_nil]
  | cons r rest ih =>
    intro q
    by_cases h : 0 < q
    · by_cases h2 : r.qty - min q r.qty = 0
      · rw [matchLevel_cons_full ib i p q r rest h h2]
        dsimp only
        simp only [List.length_cons, List.take_succ_cons, List.map_cons]
        rw [← ih (q - min q r.qty)]
      · rw [matchLevel_cons_part ib i p q r rest h h2]
        simp
    · rw [matchLevel_cons_stop ib i p q r rest h]
      simp

/-- The passive-side ids of the inner loop's trades are the ids of the
first `trades.length` orders of the level, in arrival order: `o1` is
traded before `o2`, for every prefix length. -/
theorem matchLevel_trades_take (ib : Bool) (i : Nat) (p : Int) :
    ∀ (lvl : Level) (q : Int),
      (matchLevel ib i p q lvl).trades.map (restingSideId ib) =
        ((lvl.take (matchLevel ib i p q lvl).trades.length).map Order.id) := by
  intro lvl
  induction lvl with
  | nil => intro q; simp [matchLevel_nil]
  | cons r rest ih =>
    intro q
    by_cases h : 0 < q
    · by_cases h2 : r.qty - min q r.qty = 0
      · rw [matchLevel_cons_full ib i p q r rest h h2]
        dsimp only
        simp only [List.length_cons, List.take_succ_cons, List.map_cons,
          mkTrade_restingSideId]
        rw [← ih (q - min q r.qty)]
      · rw [matchLevel_cons_part ib i p q r rest h h2]
        dsimp only
        simp
    · rw [matchLevel_cons_stop ib i p q r rest h]
      dsimp only
      simp

/-- Every trade of the inner loop except possibly the last consumes its
resting order's entire remaining quantity: the j-th trade quantity equals
the j-th resting order's quantity whenever a (j+1)-st trade exists. -/
theorem matchLevel_trades_full (ib : Bool) (i : Nat) (p : Int) :
    ∀ (lvl : Level) (q : Int) (j : Nat),
      j + 1 < (matchLevel ib i p q lvl).trades.length →
      ((matchLevel ib i p q lvl).trades.map Trade.qty)[j]? =
        (lvl.map Order.qty)[j]? := by
  intro lvl
  induction lvl with
  | nil => intro q j hj; simp [matchLevel_nil] at hj
  | cons r rest ih =>
    intro q j hj
    by_cases h : 0 < q
    · by_cases h2 : r.qty - min q r.qty = 0
      · rw [matchLevel_cons_full ib i p q r rest h h2] at hj ⊢
        dsimp only at hj ⊢
        match j with
        | 0 =>
          simp only [List.map_cons, List.getElem?_cons_zero, mkTrade_qty]
          have : min q r.qty = r.qty := by omega
          rw [this]
        | j' + 1 =>
          simp only [List.map_cons, List.getElem?_cons_succ]
          exact ih (q - min q r.qty) j' (by simpa using hj)
      · rw [matchLevel_cons_part ib i p q r rest h h2] at hj ⊢
        dsimp only at hj
        simp at hj
    · rw [matchLevel_cons_stop ib i p q r rest h] at hj
      dsimp only at hj
      simp at hj

/-- The surviving level is the original level truncated from the front:
either exactly a tail of it, or a tail whose new front order is the old
one with its quantity partially reduced (id and price unchanged). -/
theorem matchLevel_rest_drop (ib : Bool) (i : Nat) (p : Int) :
    ∀ (lvl : Level) (q : Int),
      (matchLevel ib i p q lvl).rest =
          lvl.drop (matchLevel ib i p q lvl).removed.length ∨
        ∃ r rest' d,
          lvl.drop (matchLevel ib i p q lvl).removed.length = r :: rest' ∧
          0 < d ∧ d < r.qty ∧
          (matchLevel ib i p q lvl).rest = { r with qty := r.qty - d } :: rest' := by
  intro lvl
  induction lvl with
  | nil => intro q; left; simp [matchLevel_nil]
  | cons r rest ih =>
    intro q
    by_cases h : 0 < q
    · by_cases h2 : r.qty - min q r.qty = 0
      · rw [matchLevel_cons_full ib i p q r rest h h2]
        dsimp only
        simpa only [List.length_cons, List.drop_succ_cons] using
          ih (q - min q r.qty)
      · rw [matchLevel_cons_part ib i p q r rest h h2]
        dsimp only
        right
        exact ⟨r, rest, min q r.qty, by simp, by omega, by omega, rfl⟩
    · rw [matchLevel_cons_stop ib i p q r rest h]
      left
      rfl

/-! ### Equation lemmas for the outer matching loop -/

theorem matchLadder_nil (ib : Bool) (i : Nat) (ip q : Int) :
    matchLadder ib i ip q [] = ⟨q, [], [], []⟩ := rfl

theorem matchLadder_stop (ib : Bool) (i : Nat) (ip q p : Int) (lvl : Level)
    (rest : Ladder) (h : ¬ (0 < q ∧ cross ib ip p = true)) :
    matchLadder ib i ip q ((p, lvl) :: rest) = ⟨q, (p, lvl) :: rest, [], []⟩ := by
  simp only [matchLadder, if_neg h]

theorem matchLadder_go_empty (ib : Bool) (i : Nat) (ip q p : Int) (lvl : Level)
    (rest : Ladder) (h : 0 < q ∧ cross ib ip p = true)
    (he : (matchLevel ib i p q lvl).rest = []) :
    matchLadder ib i ip q ((p, lvl) :: rest) =
      ⟨(matchLadder ib i ip (matchLevel ib i p q lvl).qty rest).qty,
        (matchLadder ib i ip (matchLevel ib i p q lvl).qty rest).rest,
        (matchLevel ib i p q lvl).trades ++
          (matchLadder ib i ip (matchLevel ib i p q lvl).qty rest).trades,
        (matchLevel ib i p q lvl).removed ++
          (matchLadder ib i ip (matchLevel ib i p q lvl).qty rest).removed⟩ := by
  simp only [matchLadder, if_pos h, he, List.isEmpty_nil, if_pos]

theorem matchLadder_go_ne (ib : Bool) (i : Nat) (ip q p : Int) (lvl : Level)
    (rest : Ladder) (h : 0 < q ∧ cross ib ip p = true)
    (hne : (matchLevel ib i p q lvl).rest ≠ []) :
    matchLadder ib i ip q ((p, lvl) :: rest) =
      ⟨(matchLevel ib i p q lvl).qty, (p, (matchLevel ib i p q lvl).rest) :: rest,
        (matchLevel ib i p q lvl).trades, (matchLevel ib i p q lvl).removed⟩ := by
  have : (matchLevel ib i p q lvl).rest.isEmpty = false := by
    simpa [List.isEmpty_iff] using hne
  simp only [matchLadder, if_pos h, this, Bool.false_eq_true, if_neg,
    not_false_iff]

@[simp] theorem ladderFind_nil (p : Int) : ladderFind p [] = none := rfl

theorem ladderFind_cons_eq (p : Int) (lvl : Level) (rest : Ladder) :
    ladderFind p ((p, lvl) :: rest) = some lvl := by
  simp [ladderFind, List.find?_cons]

theorem ladderFind_cons_ne (p p₀ : Int) (lvl : Level) (rest : Ladder)
    (h : ¬ p₀ = p) :
    ladderFind p ((p₀, lvl) :: rest) = ladderFind p rest := by
  simp only [ladderFind, List.find?_cons]
  have : ((p₀, lvl).1 == p) = false := by simpa using h
  rw [this]

/-! ### Properties of the outer matching loop -/

/-- The incoming quantity is conserved by matching: remainder plus the
recorded trade quantities equals the initial quantity. -/
theorem matchLadder_conserve (ib : Bool) (i : Nat) (ip : Int) :
    ∀ (L : Ladder) (q : Int),
      (matchLadder ib i ip q L).qty + tradesQty (matchLadder ib i ip q L).trades = q := by
  intro L
  induction L with
  | nil => intro q; simp [matchLadder_nil]
  | cons pl rest ih =>
    intro q
    obtain ⟨p, lvl⟩ := pl
    by_cases h : 0 < q ∧ cross ib ip p = true
    · by_cases he : (matchLevel ib i p q lvl).rest = []
      · rw [matchLadder_go_empty ib i ip q p lvl rest h he]
        dsimp only
        have h1 := matchLevel_conserve ib i p lvl q
        have h2 := ih (matchLevel ib i p q lvl).qty
        simp only [tradesQty_append]
        omega
      · rw [matchLadder_go_ne ib i ip q p lvl rest h he]
        dsimp only
        exact matchLevel_conserve ib i p lvl q
    · rw [matchLadder_stop ib i ip q p lvl rest h]
      dsimp only
      simp

/-- The ladder's resting quantity is conserved by matching. -/
theorem matchLadder_ladderQty (ib : Bool) (i : Nat) (ip : Int) :
    ∀ (L : Ladder) (q : Int),
      ladderQty L =
        tradesQty (matchLadder ib i ip q L).trades +
          ladderQty (matchLadder ib i ip q L).rest := by
  intro L
  induction L with
  | nil => intro q; simp [matchLadder_nil]
  | cons pl rest ih =>
    intro q
    obtain ⟨p, lvl⟩ := pl
    by_cases h : 0 < q ∧ cross ib ip p = true
    · by_cases he : (matchLevel ib i p q lvl).rest = []
      · rw [matchLadder_go_empty ib i ip q p lvl rest h he]
        dsimp only
        have h1 := matchLevel_levelQty ib i p lvl q
        rw [he] at h1
        have h2 := ih (matchLevel ib i p q lvl).qty
        simp only [ladderQty_cons, tradesQty_append]
        simp only [levelQty_nil] at h1
        omega
      · rw [matchLadder_go_ne ib i ip q p lvl rest h he]
        dsimp only
        have h1 := matchLevel_levelQty ib i p lvl q
        simp only [ladderQty_cons]
        omega
    · rw [matchLadder_stop ib i ip q p lvl rest h]
      dsimp only
      simp

/-- The erased ids followed by the surviving resting ids are exactly the
ladder's original resting ids, best price first. -/
theorem matchLadder_ids (ib : Bool) (i : Nat) (ip : Int) :
    ∀ (L : Ladder) (q : Int),
      (matchLadder ib i ip q L).removed ++ ladderIds (matchLadder ib i ip q L).rest =
        ladderIds L := by
  intro L
  induction L with
  | nil => intro q; simp [matchLadder_nil]
  | cons pl rest ih =>
    intro q
    obtain ⟨p, lvl⟩ := pl
    by_cases h : 0 < q ∧ cross ib ip p = true
    · by_cases he : (matchLevel ib i p q lvl).rest = []
      · rw [matchLadder_go_empty ib i ip q p lvl rest h he]
        dsimp only
        have h1 := matchLevel_ids ib i p lvl q
        rw [he] at h1
        simp only [List.map_nil, List.append_nil] at h1
        have h2 := ih (matchLevel ib i p q lvl).qty
        simp only [ladderIds_cons, List.append_assoc, h2, h1]
      · rw [matchLadder_go_ne ib i ip q p lvl rest h he]
        dsimp only
        have h1 := matchLevel_ids ib i p lvl q
        simp only [ladderIds_cons, ← List.append_assoc, h1]
    · rw [matchLadder_stop ib i ip q p lvl rest h]
      dsimp only
      simp

/-- A nonnegative incoming quantity stays nonnegative through matching. -/
theorem matchLadder_qty_nonneg (ib : Bool) (i : Nat) (ip : Int) :
    ∀ (L : Ladder) (q : Int), 0 ≤ q → 0 ≤ (matchLadder ib i ip q L).qty := by
  intro L
  induction L with
  | nil => intro q hq; simpa [matchLadder_nil] using hq
  | cons pl rest ih =>
    intro q hq
    obtain ⟨p, lvl⟩ := pl
    by_cases h : 0 < q ∧ cross ib ip p = true
    · by_cases he : (matchLevel ib i p q lvl).rest = []
      · rw [matchLadder_go_empty ib i ip q p lvl rest h he]
        exact ih _ (matchLevel_qty_nonneg ib i p lvl q hq)
      · rw [matchLadder_go_ne ib i ip q p lvl rest h he]
        exact matchLevel_qty_nonneg ib i p lvl q hq
    · rw [matchLadder_stop ib i ip q p lvl rest h]
      exact hq

/-- Matching stops only when the incoming order is exhausted or the best
remaining opposing level no longer crosses. -/
theorem matchLadder_stop_reason (ib : Bool) (i : Nat) (ip : Int) :
    ∀ (L : Ladder) (q : Int), 0 < (matchLadder ib i ip q L).qty →
      (matchLadder ib i ip q L).rest = [] ∨
        ∃ p lvl rest, (matchLadder ib i ip q L).rest = (p, lvl) :: rest ∧
          cross ib ip p = false := by
  intro L
  induction L with
  | nil => intro q _; left; simp [matchLadder_nil]
  | cons pl rest ih =>
    intro q hq
    obtain ⟨p, lvl⟩ := pl
    by_cases h : 0 < q ∧ cross ib ip p = true
    · by_cases he : (matchLevel ib i p q lvl).rest = []
      · rw [matchLadder_go_empty ib i ip q p lvl rest h he] at hq ⊢
        exact ih _ hq
      · rw [matchLadder_go_ne ib i ip q p lvl rest h he] at hq
        have := matchLevel_stop ib i p lvl q he
        dsimp only at hq
        omega
    · rw [matchLadder_stop ib i ip q p lvl rest h] at hq ⊢
      dsimp only at hq
      right
      refine ⟨p, lvl, rest, rfl, ?_⟩
      rcases Bool.eq_false_or_eq_true (cross ib ip p) with hc | hc
      · exact absurd ⟨hq, hc⟩ h
      · exact hc

/-- The surviving ladder's price keys are a suffix of the original ones:
levels are consumed best price first. -/
theorem matchLadder_keys_suffix (ib : Bool) (i : Nat) (ip : Int) :
    ∀ (L : Ladder) (q : Int),
      (matchLadder ib i ip q L).rest.map Prod.fst <:+ L.map Prod.fst := by
  intro L
  induction L with
  | nil => intro q; simp [matchLadder_nil]
  | cons pl rest ih =>
    intro q
    obtain ⟨p, lvl⟩ := pl
    by_cases h : 0 < q ∧ cross ib ip p = true
    · by_cases he : (matchLevel ib i p q lvl).rest = []
      · rw [matchLadder_go_empty ib i ip q p lvl rest h he]
        dsimp only
        exact (ih (matchLevel ib i p q lvl).qty).trans (List.suffix_cons p (rest.map Prod.fst))
      · rw [matchLadder_go_ne ib i ip q p lvl rest h he]
        dsimp only
        simp only [List.map_cons]
        exact List.suffix_refl _
    · rw [matchLadder_stop ib i ip q p lvl rest h]

/-- Every trade produced by matching carries the price key of a ladder
level, the incoming id on the aggressor side, and a resting order's id of
that very level on the passive side. -/
theorem matchLadder_trades (ib : Bool) (i : Nat) (ip : Int) :
    ∀ (L : Ladder) (q : Int) (t : Trade), t ∈ (matchLadder ib i ip q L).trades →
      ∃ pl ∈ L, t.price = pl.1 ∧ incSideId ib t = i ∧
        restingSideId ib t ∈ pl.2.map Order.id := by
  intro L
  induction L with
  | nil => intro q t ht; simp [matchLadder_nil] at ht
  | cons pl rest ih =>
    intro q t ht
    obtain ⟨p, lvl⟩ := pl
    by_cases h : 0 < q ∧ cross ib ip p = true
    · by_cases he : (matchLevel ib i p q lvl).rest = []
      · rw [matchLadder_go_empty ib i ip q p lvl rest h he] at ht
        dsimp only at ht
        rcases List.mem_append.mp ht with h3 | h3
        · obtain ⟨hp, hi, hm⟩ := matchLevel_trades ib i p lvl q t h3
          exact ⟨(p, lvl), List.mem_cons_self _ _, hp, hi, hm⟩
        · obtain ⟨pl₀, hpl, hrest⟩ := ih (matchLevel ib i p q lvl).qty t h3
          exact ⟨pl₀, List.mem_cons_of_mem _ hpl, hrest⟩
      · rw [matchLadder_go_ne ib i ip q p lvl rest h he] at ht
        dsimp only at ht
        obtain ⟨hp, hi, hm⟩ := matchLevel_trades ib i p lvl q t ht
        exact ⟨(p, lvl), List.mem_cons_self _ _, hp, hi, hm⟩
    · rw [matchLadder_stop ib i ip q p lvl rest h] at ht
      simp at ht

/-- Orders keep their level price through matching. -/
theorem matchLadder_levelPrice (ib : Bool) (i : Nat) (ip : Int) :
    ∀ (L : Ladder) (q : Int),
      (∀ pl ∈ L, ∀ o ∈ pl.2, o.price = pl.1) →
      ∀ pl ∈ (matchLadder ib i ip q L).rest, ∀ o ∈ pl.2, o.price = pl.1 := by
  intro L
  induction L with
  | nil => intro q _ pl hpl; simp [matchLadder_nil] at hpl
  | cons hd rest ih =>
    intro q hL pl hpl o ho
    obtain ⟨p, lvl⟩ := hd
    by_cases h : 0 < q ∧ cross ib ip p = true
    · by_cases he : (matchLevel ib i p q lvl).rest = []
      · rw [matchLadder_go_empty ib i ip q p lvl rest h he] at hpl
        exact ih _ (fun pl₀ h₀ => hL pl₀ (List.mem_cons_of_mem _ h₀)) pl hpl o ho
      · rw [matchLadder_go_ne ib i ip q p lvl rest h he] at hpl
        dsimp only at hpl
        rcases List.mem_cons.mp hpl with h3 | h3
        · subst h3
          obtain ⟨o₀, hmem, hid, hpr⟩ := matchLevel_rest_mem ib i p lvl q o ho
          rw [hpr]
          exact hL (p, lvl) (List.mem_cons_self _ _) o₀ hmem
        · exact hL pl (List.mem_cons_of_mem _ h3) o ho
    · rw [matchLadder_stop ib i ip q p lvl rest h] at hpl
      exact hL pl hpl o ho

/-- Matching never leaves an empty level in the ladder. -/
theorem matchLadder_nonempty (ib : Bool) (i : Nat) (ip : Int) :
    ∀ (L : Ladder) (q : Int),
      (∀ pl ∈ L, pl.2 ≠ []) →
      ∀ pl ∈ (matchLadder ib i ip q L).rest, pl.2 ≠ [] := by
  intro L
  induction L with
  | nil => intro q _ pl hpl; simp [matchLadder_nil] at hpl
  | cons hd rest ih =>
    intro q hL pl hpl
    obtain ⟨p, lvl⟩ := hd
    by_cases h : 0 < q ∧ cross ib ip p = true
    · by_cases he : (matchLevel ib i p q lvl).rest = []
      · rw [matchLadder_go_empty ib i ip q p lvl rest h he] at hpl
        exact ih _ (fun pl₀ h₀ => hL pl₀ (List.mem_cons_of_mem _ h₀)) pl hpl
      · rw [matchLadder_go_ne ib i ip q p lvl rest h he] at hpl
        dsimp only at hpl
        rcases List.mem_cons.mp hpl with h3 | h3
        · subst h3; exact he
        · exact hL pl (List.mem_cons_of_mem _ h3)
    · rw [matchLadder_stop ib i ip q p lvl rest h] at hpl
      exact hL pl hpl

/-- An indexed resting order that matching does not erase is still found
at its price key afterwards. -/
theorem matchLadder_survive (ib : Bool) (i : Nat) (ip : Int) :
    ∀ (L : Ladder) (q : Int) (p' : Int) (lvl₀ : Level) (x : Nat),
      ladderFind p' L = some lvl₀ → x ∈ lvl₀.map Order.id →
      x ∉ (matchLadder ib i ip q L).removed →
      ∃ lvl₁, ladderFind p' (matchLadder ib i ip q L).rest = some lvl₁ ∧
        x ∈ lvl₁.map Order.id := by
  intro L
  induction L with
  | nil => intro q p' lvl₀ x hf; simp [ladderFind] at hf
  | cons hd rest ih =>
    intro q p' lvl₀ x hf hx hnr
    obtain ⟨p, lvl⟩ := hd
    by_cases h : 0 < q ∧ cross ib ip p = true
    · by_cases he : (matchLevel ib i p q lvl).rest = []
      · rw [matchLadder_go_empty ib i ip q p lvl rest h he] at hnr ⊢
        dsimp only at hnr ⊢
        by_cases hp : p = p'
        · subst hp
          rw [ladderFind_cons_eq p lvl rest] at hf
          injection hf with hf
          subst hf
          exfalso
          apply hnr
          have h1 := matchLevel_ids ib i p lvl q
          rw [he] at h1
          simp only [List.map_nil, List.append_nil] at h1
          rw [← h1] at hx
          exact List.mem_append_left _ hx
        · rw [ladderFind_cons_ne p' p lvl rest hp] at hf
          have hnr' : x ∉ (matchLadder ib i ip (matchLevel ib i p q lvl).qty rest).removed :=
            fun hc => hnr (List.mem_append_right _ hc)
          exact ih _ p' lvl₀ x hf hx hnr'
      · rw [matchLadder_go_ne ib i ip q p lvl rest h he] at hnr ⊢
        dsimp only at hnr ⊢
        by_cases hp : p = p'
        · subst hp
          rw [ladderFind_cons_eq p lvl rest] at hf
          injection hf with hf
          subst hf
          refine ⟨(matchLevel ib i p q lvl).rest, ladderFind_cons_eq _ _ _, ?_⟩
          have h1 := matchLevel_ids ib i p lvl q
          rw [← h1] at hx
          rcases List.mem_append.mp hx with h3 | h3
          · exact absurd h3 hnr
          · exact h3
        · rw [ladderFind_cons_ne p' p lvl rest hp] at hf
          rw [ladderFind_cons_ne p' p _ rest hp]
          exact ⟨lvl₀, hf, hx⟩
    · rw [matchLadder_stop ib i ip q p lvl rest h]
      exact ⟨lvl₀, hf, hx⟩

/-! ### Equation lemmas for residual insertion -/

theorem ladderInsert_nil (lt : Int → Int → Bool) (o : Order) :
    ladderInsert lt o [] = [(o.price, [o])] := rfl

theorem ladderInsert_before (lt : Int → Int → Bool) (o : Order) (q : Int)
    (lvl : Level) (rest : Ladder) (h : lt o.price q = true) :
    ladderInsert lt o ((q, lvl) :: rest) = (o.price, [o]) :: (q, lvl) :: rest := by
  simp [ladderInsert, h]

theorem ladderInsert_at (lt : Int → Int → Bool) (o : Order) (q : Int)
    (lvl : Level) (rest : Ladder) (h : lt o.price q = false) (h2 : o.price = q) :
    ladderInsert lt o ((q, lvl) :: rest) = (q, lvl ++ [o]) :: rest := by
  subst h2
  simp [ladderInsert, h]

theorem ladderInsert_after (lt : Int → Int → Bool) (o : Order) (q : Int)
    (lvl : Level) (rest : Ladder) (h : lt o.price q = false) (h2 : ¬ o.price = q) :
    ladderInsert lt o ((q, lvl) :: rest) = (q, lvl) :: ladderInsert lt o rest := by
  simp [ladderInsert, h, h2]

/-! ### Properties of residual insertion -/

/-- Inserting a residual order adds exactly its quantity to the ladder. -/
theorem ladderQty_ladderInsert (lt : Int → Int → Bool) (o : Order) :
    ∀ L : Ladder, ladderQty (ladderInsert lt o L) = o.qty + ladderQty L := by
  intro L
  induction L with
  | nil => simp [ladderInsert_nil, levelQty]
  | cons hd rest ih =>
    obtain ⟨q, lvl⟩ := hd
    by_cases h1 : lt o.price q
    · rw [ladderInsert_before lt o q lvl rest h1]
      simp [levelQty]
    · have h1' : lt o.price q = false := by simpa using h1
      by_cases h2 : o.price = q
      · rw [ladderInsert_at lt o q lvl rest h1' h2]
        simp only [ladderQty_cons, levelQty_append]
        simp [levelQty]
        ring
      · rw [ladderInsert_after lt o q lvl rest h1' h2]
        simp only [ladderQty_cons, ih]
        ring

/-- Inserting a residual order adds exactly its id to the resting ids. -/
theorem ladderIds_ladderInsert (lt : Int → Int → Bool) (o : Order) :
    ∀ L : Ladder, (ladderIds (ladderInsert lt o L)).Perm (o.id :: ladderIds L) := by
  intro L
  induction L with
  | nil => simp [ladderInsert_nil]
  | cons hd rest ih =>
    obtain ⟨q, lvl⟩ := hd
    by_cases h1 : lt o.price q
    · rw [ladderInsert_before lt o q lvl rest h1]
      simp
    · have h1' : lt o.price q = false := by simpa using h1
      by_cases h2 : o.price = q
      · rw [ladderInsert_at lt o q lvl rest h1' h2]
        simp only [ladderIds_cons, List.map_append, List.map_cons, List.map_nil,
          List.append_assoc, List.singleton_append]
        exact List.perm_middle
      · rw [ladderInsert_after lt o q lvl rest h1' h2]
        simp only [ladderIds_cons]
        exact (ih.append_left (lvl.map Order.id)).trans List.perm_middle

/-- Every price key after insertion is the inserted price or an old key. -/
theorem keys_ladderInsert (lt : Int → Int → Bool) (o : Order) :
    ∀ L : Ladder, ∀ k ∈ (ladderInsert lt o L).map Prod.fst,
      k = o.price ∨ k ∈ L.map Prod.fst := by
  intro L
  induction L with
  | nil => intro k hk; simp [ladderInsert_nil] at hk; exact Or.inl hk
  | cons hd rest ih =>
    obtain ⟨q, lvl⟩ := hd
    intro k hk
    by_cases h1 : lt o.price q
    · rw [ladderInsert_before lt o q lvl rest h1] at hk
      simp only [List.map_cons] at hk
      rcases List.mem_cons.mp hk with h | h
      · exact Or.inl h
      · exact Or.inr (by simpa using h)
    · have h1' : lt o.price q = false := by simpa using h1
      by_cases h2 : o.price = q
      · rw [ladderInsert_at lt o q lvl rest h1' h2] at hk
        exact Or.inr (by simpa using hk)
      · rw [ladderInsert_after lt o q lvl rest h1' h2] at hk
        simp only [List.map_cons] at hk
        rcases List.mem_cons.mp hk with h | h
        · subst h; right; simp
        · rcases ih k h with h' | h'
          · exact Or.inl h'
          · right; simp [h']

/-- Insertion never creates an empty level. -/
theorem nonempty_ladderInsert (lt : Int → Int → Bool) (o : Order) :
    ∀ L : Ladder, (∀ pl ∈ L, pl.2 ≠ []) →
      ∀ pl ∈ ladderInsert lt o L, pl.2 ≠ [] := by
  intro L
  induction L with
  | nil => intro _ pl hpl; simp [ladderInsert_nil] at hpl; simp [hpl]
  | cons hd rest ih =>
    obtain ⟨q, lvl⟩ := hd
    intro hL pl hpl
    by_cases h1 : lt o.price q
    · rw [ladderInsert_before lt o q lvl rest h1] at hpl
      rcases List.mem_cons.mp hpl with h | h
      · subst h; simp
      · exact hL pl h
    · have h1' : lt o.price q = false := by simpa using h1
      by_cases h2 : o.price = q
      · rw [ladderInsert_at lt o q lvl rest h1' h2] at hpl
        rcases List.mem_cons.mp hpl with h | h
        · subst h; simp
        · exact hL pl (List.mem_cons_of_mem _ h)
      · rw [ladderInsert_after lt o q lvl rest h1' h2] at hpl
        rcases List.mem_cons.mp hpl with h | h
        · subst h; exact hL _ (List.mem_cons_self _ _)
        · exact ih (fun pl₀ h₀ => hL pl₀ (List.mem_cons_of_mem _ h₀)) pl h

/-- Insertion keeps every order at a level keyed by its own price. -/
theorem levelPrice_ladderInsert (lt : Int → Int → Bool) (o : Order) :
    ∀ L : Ladder, (∀ pl ∈ L, ∀ o' ∈ pl.2, o'.price = pl.1) →
      ∀ pl ∈ ladderInsert lt o L, ∀ o' ∈ pl.2, o'.price = pl.1 := by
  intro L
  induction L with
  | nil =>
    intro _ pl hpl o' ho'
    simp only [ladderInsert_nil, List.mem_singleton] at hpl
    subst hpl
    simp only [List.mem_singleton] at ho'
    subst ho'
    rfl
  | cons hd rest ih =>
    obtain ⟨q, lvl⟩ := hd
    intro hL pl hpl o' ho'
    by_cases h1 : lt o.price q
    · rw [ladderInsert_before lt o q lvl rest h1] at hpl
      rcases List.mem_cons.mp hpl with h | h
      · subst h; simp only [List.mem_singleton] at ho'; subst ho'; rfl
      · exact hL pl h o' ho'
    · have h1' : lt o.price q = false := by simpa using h1
      by_cases h2 : o.price = q
      · rw [ladderInsert_at lt o q lvl rest h1' h2] at hpl
        rcases List.mem_cons.mp hpl with h | h
        · subst h
          rcases List.mem_append.mp ho' with h' | h'
          · exact hL (q, lvl) (List.mem_cons_self _ _) o' h'
          · simp only [List.mem_singleton] at h'; subst h'; exact h2
        · exact hL pl (List.mem_cons_of_mem _ h) o' ho'
      · rw [ladderInsert_after lt o q lvl rest h1' h2] at hpl
        rcases List.mem_cons.mp hpl with h | h
        · subst h; exact hL _ (List.mem_cons_self _ _) o' ho'
        · exact ih (fun pl₀ h₀ => hL pl₀ (List.mem_cons_of_mem _ h₀)) pl h o' ho'

/-- The inserted order is found at its price key. -/
theorem ladderFind_ladderInsert_self (lt : Int → Int → Bool) (o : Order) :
    ∀ L : Ladder, ∃ lvl', ladderFind o.price (ladderInsert lt o L) = some lvl' ∧
      o.id ∈ lvl'.map Order.id := by
  intro L
  induction L with
  | nil => exact ⟨[o], by rw [ladderInsert_nil]; exact ladderFind_cons_eq _ _ _, by simp⟩
  | cons hd rest ih =>
    obtain ⟨q, lvl⟩ := hd
    by_cases h1 : lt o.price q
    · refine ⟨[o], ?_, by simp⟩
      rw [ladderInsert_before lt o q lvl rest h1]
      exact ladderFind_cons_eq _ _ _
    · have h1' : lt o.price q = false := by simpa using h1
      by_cases h2 : o.price = q
      · refine ⟨lvl ++ [o], ?_, by simp⟩
        rw [ladderInsert_at lt o q lvl rest h1' h2]
        subst h2
        exact ladderFind_cons_eq _ _ _
      · obtain ⟨lvl', hf, hm⟩ := ih
        refine ⟨lvl', ?_, hm⟩
        rw [ladderInsert_after lt o q lvl rest h1' h2]
        rw [ladderFind_cons_ne _ _ _ _ (fun hc => h2 hc.symm)]
        exact hf

/-- Lookup at any other price key is unchanged by insertion. -/
theorem ladderFind_ladderInsert_ne (lt : Int → Int → Bool) (o : Order)
    (p' : Int) (hne : ¬ p' = o.price) :
    ∀ L : Ladder, ladderFind p' (ladderInsert lt o L) = ladderFind p' L := by
  intro L
  induction L with
  | nil =>
    rw [ladderInsert_nil, ladderFind_cons_ne _ _ _ _ (fun hc => hne hc.symm)]
  | cons hd rest ih =>
    obtain ⟨q, lvl⟩ := hd
    by_cases h1 : lt o.price q
    · rw [ladderInsert_before lt o q lvl rest h1,
        ladderFind_cons_ne _ _ _ _ (fun hc => hne hc.symm)]
    · have h1' : lt o.price q = false := by simpa using h1
      by_cases h2 : o.price = q
      · rw [ladderInsert_at lt o q lvl rest h1' h2]
        subst h2
        rw [ladderFind_cons_ne _ _ _ _ (fun hc => hne hc.symm),
          ladderFind_cons_ne _ _ _ _ (fun hc => hne hc.symm)]
      · rw [ladderInsert_after lt o q lvl rest h1' h2]
        by_cases h3 : q = p'
        · subst h3
          rw [ladderFind_cons_eq, ladderFind_cons_eq]
        · rw [ladderFind_cons_ne _ _ _ _ h3, ladderFind_cons_ne _ _ _ _ h3]
          exact ih

/-- Insertion into a ladder sorted by the map comparator stays sorted. -/
theorem sorted_ladderInsert (lt : Int → Int → Bool)
    (Htrans : ∀ a b c, lt a b = true → lt b c = true → lt a c = true)
    (Htot : ∀ a b, lt a b = false → ¬ a = b → lt b a = true) (o : Order) :
    ∀ L : Ladder, (L.map Prod.fst).Pairwise (fun a b => lt a b = true) →
      ((ladderInsert lt o L).map Prod.fst).Pairwise (fun a b => lt a b = true) := by
  intro L
  induction L with
  | nil => intro _; simp [ladderInsert_nil]
  | cons hd rest ih =>
    obtain ⟨q, lvl⟩ := hd
    intro hs
    simp only [List.map_cons, List.pairwise_cons] at hs
    obtain ⟨hq, hrest⟩ := hs
    by_cases h1 : lt o.price q
    · rw [ladderInsert_before lt o q lvl rest h1]
      simp only [List.map_cons, List.pairwise_cons]
      refine ⟨?_, hq, hrest⟩
      intro b hb
      rcases List.mem_cons.mp hb with h | h
      · subst h; exact h1
      · exact Htrans _ _ _ h1 (hq b h)
    · have h1' : lt o.price q = false := by simpa using h1
      by_cases h2 : o.price = q
      · rw [ladderInsert_at lt o q lvl rest h1' h2]
        simp only [List.map_cons, List.pairwise_cons]
        exact ⟨hq, hrest⟩
      · rw [ladderInsert_after lt o q lvl rest h1' h2]
        simp only [List.map_cons, List.pairwise_cons]
        refine ⟨?_, ih hrest⟩
        intro b hb
        rcases keys_ladderInsert lt o rest b hb with h | h
        · subst h; exact Htot _ _ h1' h2
        · exact hq b h

/-! ### Properties of the order index operations -/

theorem mem_idxErase (e : Nat × Int × Bool) (id : Nat) (idx : IndexT) :
    e ∈ idxErase id idx ↔ e ∈ idx ∧ ¬ e.1 = id := by
  simp [idxErase, List.mem_filter]

theorem mem_idxEraseMany (e : Nat × Int × Bool) (rm : List Nat) (idx : IndexT) :
    e ∈ idxEraseMany rm idx ↔ e ∈ idx ∧ e.1 ∉ rm := by
  simp [idxEraseMany, List.mem_filter, List.elem_iff]

theorem mem_idxInsert (e : Nat × Int × Bool) (id : Nat) (p : Int) (s : Bool)
    (idx : IndexT) :
    e ∈ idxInsert id p s idx ↔ e = (id, p, s) ∨ (e ∈ idx ∧ ¬ e.1 = id) := by
  simp [idxInsert, mem_idxErase]

theorem idxFind_eq_none (idx : IndexT) (id : Nat) :
    idxFind idx id = none ↔ ∀ e ∈ idx, ¬ e.1 = id := by
  simp [idxFind, List.find?_eq_none]

theorem idxFind_some_mem (idx : IndexT) (id : Nat) (v : Int × Bool)
    (h : idxFind idx id = some v) : (id, v) ∈ idx := by
  simp only [idxFind, Option.map_eq_some'] at h
  obtain ⟨e, hf, hv⟩ := h
  have hm := List.mem_of_find?_eq_some hf
  have hp := List.find?_some hf
  simp only [beq_iff_eq] at hp
  have : e = (id, v) := by
    obtain ⟨e1, e2⟩ := e
    simp only at hp hv
    rw [hp, hv]
  rwa [this] at hm

theorem idxFind_isSome_of_mem (idx : IndexT) (e : Nat × Int × Bool)
    (h : e ∈ idx) : (idxFind idx e.1).isSome := by
  simp only [idxFind, Option.isSome_map']
  rw [List.find?_isSome]
  exact ⟨e, h, by simp⟩

theorem idxFind_idxInsert_self (idx : IndexT) (id : Nat) (p : Int) (s : Bool) :
    idxFind (idxInsert id p s idx) id = some (p, s) := by
  simp [idxFind, idxInsert, List.find?_cons_of_pos]

theorem idxFind_idxErase_self (idx : IndexT) (id : Nat) :
    idxFind (idxErase id idx) id = none := by
  rw [idxFind_eq_none]
  intro e he
  exact ((mem_idxErase e id idx).mp he).2

/-! ### Properties of cancellation -/

theorem cancelLevel_of_absent (id : Nat) (lvl : Level)
    (h : ∀ o ∈ lvl, ¬ o.id = id) : cancelLevel id lvl = lvl := by
  apply List.eraseP_of_forall_not
  intro o ho
  simpa using h o ho

theorem levelQty_cancelLevel (id : Nat) :
    ∀ (lvl : Level) (o : Order), lvl.find? (fun o => o.id == id) = some o →
      levelQty (cancelLevel id lvl) = levelQty lvl - o.qty := by
  intro lvl
  induction lvl with
  | nil => intro o h; simp at h
  | cons hd tl ih =>
    intro o h
    by_cases hp : hd.id = id
    · rw [List.find?_cons_of_pos _ (by simpa using hp)] at h
      injection h with h
      subst h
      rw [cancelLevel, List.eraseP_cons_of_pos (by simpa using hp)]
      simp only [levelQty_cons]
      ring
    · rw [List.find?_cons_of_neg _ (by simpa using hp)] at h
      rw [cancelLevel, List.eraseP_cons_of_neg (by simpa using hp)]
      simp only [levelQty_cons]
      rw [show Order.qty hd + levelQty tl - o.qty =
        Order.qty hd + (levelQty tl - o.qty) by ring]
      rw [← ih o h]
      rfl

theorem levelIds_cancelLevel (id : Nat) :
    ∀ (lvl : Level) (x : Nat), x ∈ lvl.map Order.id → ¬ x = id →
      x ∈ (cancelLevel id lvl).map Order.id := by
  intro lvl
  induction lvl with
  | nil => intro x hx; simp at hx
  | cons hd tl ih =>
    intro x hx hne
    by_cases hp : hd.id = id
    · rw [cancelLevel, List.eraseP_cons_of_pos (by simpa using hp)]
      simp only [List.map_cons, List.mem_cons] at hx
      rcases hx with h | h
      · exact absurd (h.trans hp) hne
      · exact h
    · rw [cancelLevel, List.eraseP_cons_of_neg (by simpa using hp)]
      simp only [List.map_cons, List.mem_cons] at hx ⊢
      rcases hx with h | h
      · exact Or.inl h
      · exact Or.inr (ih x h hne)

theorem cancelLevel_sublist (id : Nat) (lvl : Level) :
    List.Sublist (cancelLevel id lvl) lvl := List.eraseP_sublist lvl

/-! ### Equation lemmas for ladder cancellation -/

theorem ladderCancel_nil (p : Int) (id : Nat) : ladderCancel p id [] = [] := rfl

theorem ladderCancel_cons_hit_empty (p : Int) (id : Nat) (q : Int) (lvl : Level)
    (rest : Ladder) (h : q = p) (he : cancelLevel id lvl = []) :
    ladderCancel p id ((q, lvl) :: rest) = rest := by
  simp [ladderCancel, h, he]

theorem ladderCancel_cons_hit_ne (p : Int) (id : Nat) (q : Int) (lvl : Level)
    (rest : Ladder) (h : q = p) (he : ¬ cancelLevel id lvl = []) :
    ladderCancel p id ((q, lvl) :: rest) = (q, cancelLevel id lvl) :: rest := by
  have : (cancelLevel id lvl).isEmpty = false := by simpa [List.isEmpty_iff] using he
  simp [ladderCancel, h, this]

theorem ladderCancel_cons_miss (p : Int) (id : Nat) (q : Int) (lvl : Level)
    (rest : Ladder) (h : ¬ q = p) :
    ladderCancel p id ((q, lvl) :: rest) = (q, lvl) :: ladderCancel p id rest := by
  simp [ladderCancel, h]

/-! ### Properties of ladder cancellation -/

/-- Cancelling at a found price key removes exactly the difference between
the level's old and new totals. -/
theorem ladderQty_ladderCancel (p : Int) (id : Nat) :
    ∀ L : Ladder, ∀ lvl, ladderFind p L = some lvl →
      ladderQty (ladderCancel p id L) =
        ladderQty L - levelQty lvl + levelQty (cancelLevel id lvl) := by
  intro L
  induction L with
  | nil => intro lvl h; simp at h
  | cons hd rest ih =>
    obtain ⟨q, lvl₀⟩ := hd
    intro lvl h
    by_cases hq : q = p
    · subst hq
      rw [ladderFind_cons_eq] at h
      injection h with h
      subst h
      by_cases he : cancelLevel id lvl₀ = []
      · rw [ladderCancel_cons_hit_empty q id q lvl₀ rest rfl he, he]
        simp only [ladderQty_cons, levelQty_nil]
        ring
      · rw [ladderCancel_cons_hit_ne q id q lvl₀ rest rfl he]
        simp only [ladderQty_cons]
        ring
    · rw [ladderFind_cons_ne p q lvl₀ rest hq] at h
      rw [ladderCancel_cons_miss p id q lvl₀ rest hq]
      simp only [ladderQty_cons, ih lvl h]
      ring

/-- Cancelling at an absent price key is a no-op on the ladder. -/
theorem ladderCancel_of_absent (p : Int) (id : Nat) :
    ∀ L : Ladder, ladderFind p L = none → ladderCancel p id L = L := by
  intro L
  induction L with
  | nil => intro _; rfl
  | cons hd rest ih =>
    obtain ⟨q, lvl⟩ := hd
    intro h
    by_cases hq : q = p
    · subst hq; rw [ladderFind_cons_eq] at h; exact absurd h (by simp)
    · rw [ladderFind_cons_ne p q lvl rest hq] at h
      rw [ladderCancel_cons_miss p id q lvl rest hq, ih h]

/-- Cancellation only removes resting ids. -/
theorem ladderIds_ladderCancel (p : Int) (id : Nat) :
    ∀ L : Ladder, List.Sublist (ladderIds (ladderCancel p id L)) (ladderIds L) := by
  intro L
  induction L with
  | nil => simp [ladderCancel_nil]
  | cons hd rest ih =>
    obtain ⟨q, lvl⟩ := hd
    by_cases hq : q = p
    · by_cases he : cancelLevel id lvl = []
      · rw [ladderCancel_cons_hit_empty p id q lvl rest hq he]
        simp only [ladderIds_cons]
        exact (List.sublist_append_right _ _)
      · rw [ladderCancel_cons_hit_ne p id q lvl rest hq he]
        simp only [ladderIds_cons]
        exact ((cancelLevel_sublist id lvl).map Order.id).append (List.Sublist.refl _)
    · rw [ladderCancel_cons_miss p id q lvl rest hq]
      simp only [ladderIds_cons]
      exact (List.Sublist.refl _).append ih

/-- Cancellation only removes price keys. -/
theorem keys_ladderCancel (p : Int) (id : Nat) :
    ∀ L : Ladder, List.Sublist ((ladderCancel p id L).map Prod.fst) (L.map Prod.fst) := by
  intro L
  induction L with
  | nil => simp [ladderCancel_nil]
  | cons hd rest ih =>
    obtain ⟨q, lvl⟩ := hd
    by_cases hq : q = p
    · by_cases he : cancelLevel id lvl = []
      · rw [ladderCancel_cons_hit_empty p id q lvl rest hq he]
        simp only [List.map_cons]
        exact List.sublist_cons_of_sublist _ (List.Sublist.refl _)
      · rw [ladderCancel_cons_hit_ne p id q lvl rest hq he]
        simp only [List.map_cons]
        exact List.Sublist.cons₂ _ (List.Sublist.refl _)
    · rw [ladderCancel_cons_miss p id q lvl rest hq]
      simp only [List.map_cons]
      exact List.Sublist.cons₂ _ ih

/-- Lookup at another price key is unchanged by cancellation. -/
theorem ladderFind_ladderCancel_ne (p p' : Int) (id : Nat) (hne : ¬ p' = p) :
    ∀ L : Ladder, ladderFind p' (ladderCancel p id L) = ladderFind p' L := by
  intro L
  induction L with
  | nil => rfl
  | cons hd rest ih =>
    obtain ⟨q, lvl⟩ := hd
    by_cases hq : q = p
    · subst hq
      by_cases he : cancelLevel id lvl = []
      · rw [ladderCancel_cons_hit_empty q id q lvl rest rfl he,
          ladderFind_cons_ne p' q lvl rest (fun hc => hne hc.symm)]
      · rw [ladderCancel_cons_hit_ne q id q lvl rest rfl he,
          ladderFind_cons_ne p' q _ rest (fun hc => hne hc.symm),
          ladderFind_cons_ne p' q lvl rest (fun hc => hne hc.symm)]
    · rw [ladderCancel_cons_miss p id q lvl rest hq]
      by_cases h3 : q = p'
      · subst h3
        rw [ladderFind_cons_eq, ladderFind_cons_eq]
      · rw [ladderFind_cons_ne p' q lvl _ h3, ladderFind_cons_ne p' q lvl rest h3]
        exact ih

/-- Lookup at the cancelled price key returns the shrunken level when it
survives. -/
theorem ladderFind_ladderCancel_self (p : Int) (id : Nat) :
    ∀ L : Ladder, ∀ lvl, ladderFind p L = some lvl →
      ¬ cancelLevel id lvl = [] →
      ladderFind p (ladderCancel p id L) = some (cancelLevel id lvl) := by
  intro L
  induction L with
  | nil => intro lvl h; simp at h
  | cons hd rest ih =>
    obtain ⟨q, lvl₀⟩ := hd
    intro lvl h hne
    by_cases hq : q = p
    · subst hq
      rw [ladderFind_cons_eq] at h
      injection h with h
      subst h
      rw [ladderCancel_cons_hit_ne q id q lvl₀ rest rfl hne, ladderFind_cons_eq]
    · rw [ladderFind_cons_ne p q lvl₀ rest hq] at h
      rw [ladderCancel_cons_miss p id q lvl₀ rest hq,
        ladderFind_cons_ne p q lvl₀ _ hq]
      exact ih lvl h hne

/-- Cancellation leaves no empty level behind. -/
theorem nonempty_ladderCancel (p : Int) (id : Nat) :
    ∀ L : Ladder, (∀ pl ∈ L, pl.2 ≠ []) →
      ∀ pl ∈ ladderCancel p id L, pl.2 ≠ [] := by
  intro L
  induction L with
  | nil => intro _ pl hpl; simp [ladderCancel_nil] at hpl
  | cons hd rest ih =>
    obtain ⟨q, lvl⟩ := hd
    intro hL pl hpl
    by_cases hq : q = p
    · by_cases he : cancelLevel id lvl = []
      · rw [ladderCancel_cons_hit_empty p id q lvl rest hq he] at hpl
        exact hL pl (List.mem_cons_of_mem _ hpl)
      · rw [ladderCancel_cons_hit_ne p id q lvl rest hq he] at hpl
        rcases List.mem_cons.mp hpl with h | h
        · subst h; exact he
        · exact hL pl (List.mem_cons_of_mem _ h)
    · rw [ladderCancel_cons_miss p id q lvl rest hq] at hpl
      rcases List.mem_cons.mp hpl with h | h
      · subst h; exact hL _ (List.mem_cons_self _ _)
      · exact ih (fun pl₀ h₀ => hL pl₀ (List.mem_cons_of_mem _ h₀)) pl h

/-- Cancellation keeps every surviving order at its own price key. -/
theorem levelPrice_ladderCancel (p : Int) (id : Nat) :
    ∀ L : Ladder, (∀ pl ∈ L, ∀ o ∈ pl.2, o.price = pl.1) →
      ∀ pl ∈ ladderCancel p id L, ∀ o ∈ pl.2, o.price = pl.1 := by
  intro L
  induction L with
  | nil => intro _ pl hpl; simp [ladderCancel_nil] at hpl
  | cons hd rest ih =>
    obtain ⟨q, lvl⟩ := hd
    intro hL pl hpl o ho
    by_cases hq : q = p
    · by_cases he : cancelLevel id lvl = []
      · rw [ladderCancel_cons_hit_empty p id q lvl rest hq he] at hpl
        exact hL pl (List.mem_cons_of_mem _ hpl) o ho
      · rw [ladderCancel_cons_hit_ne p id q lvl rest hq he] at hpl
        rcases List.mem_cons.mp hpl with h | h
        · subst h
          exact hL (q, lvl) (List.mem_cons_self _ _) o
            ((cancelLevel_sublist id lvl).mem ho)
        · exact hL pl (List.mem_cons_of_mem _ h) o ho
    · rw [ladderCancel_cons_miss p id q lvl rest hq] at hpl
      rcases List.mem_cons.mp hpl with h | h
      · subst h; exact hL _ (List.mem_cons_self _ _) o ho
      · exact ih (fun pl₀ h₀ => hL pl₀ (List.mem_cons_of_mem _ h₀)) pl h o ho

/-! ### Comparator facts and sorted-ladder utilities -/

theorem sideLt_trans (ib : Bool) (a b c : Int) (h1 : sideLt ib a b = true)
    (h2 : sideLt ib b c = true) : sideLt ib a c = true := by
  cases ib <;> simp [sideLt] at h1 h2 ⊢ <;> omega

theorem sideLt_total (ib : Bool) (a b : Int) (h1 : sideLt ib a b = false)
    (h2 : ¬ a = b) : sideLt ib b a = true := by
  cases ib <;> simp [sideLt] at h1 ⊢ <;> omega

theorem sideLt_irrefl (ib : Bool) (a : Int) : sideLt ib a a = false := by
  cases ib <;> simp [sideLt]

/-- In a sorted key list the head bounds every member. -/
theorem sorted_head_bound {R : Int → Int → Prop} :
    ∀ (k : Int) (ks : List Int), (k :: ks).Pairwise R →
      ∀ x ∈ k :: ks, x = k ∨ R k x := by
  intro k ks hp x hx
  rcases List.mem_cons.mp hx with h | h
  · exact Or.inl h
  · exact Or.inr ((List.pairwise_cons.mp hp).1 x h)

/-- A key beyond the sorted ladder's head key is absent. -/
theorem ladderFind_none_of_before (lt : Int → Int → Bool)
    (Hirr : ∀ a, lt a a = false) (p : Int) :
    ∀ L : Ladder, (L.map Prod.fst).Pairwise (fun a c => lt a c = true) →
      (∀ k ∈ L.map Prod.fst, lt p k = true) → ladderFind p L = none := by
  intro L
  induction L with
  | nil => intro _ _; rfl
  | cons hd rest ih =>
    obtain ⟨q, lvl⟩ := hd
    intro hs hall
    have hq : lt p q = true := hall q (by simp)
    have hpq : ¬ q = p := by
      intro hc; subst hc; rw [Hirr] at hq; exact Bool.false_ne_true hq
    rw [ladderFind_cons_ne p q lvl rest hpq]
    simp only [List.map_cons, List.pairwise_cons] at hs
    exact ih hs.2 (fun k hk => hall k (by simp [hk]))

/-- Insertion into a sorted ladder preserves lookup membership at every
price key. -/
theorem ladderFind_ladderInsert_mem (lt : Int → Int → Bool)
    (Htrans : ∀ a b c, lt a b = true → lt b c = true → lt a c = true)
    (Hirr : ∀ a, lt a a = false) (o : Order) (p' : Int) (x : Nat) :
    ∀ L : Ladder, (L.map Prod.fst).Pairwise (fun a c => lt a c = true) →
      ∀ lvl, ladderFind p' L = some lvl → x ∈ lvl.map Order.id →
      ∃ lvl', ladderFind p' (ladderInsert lt o L) = some lvl' ∧
        x ∈ lvl'.map Order.id := by
  intro L
  induction L with
  | nil => intro _ lvl h; simp at h
  | cons hd rest ih =>
    obtain ⟨q, lvl₀⟩ := hd
    intro hs lvl h hx
    by_cases hp : p' = o.price
    · subst hp
      by_cases h1 : lt o.price q
      · exfalso
        have : ladderFind o.price ((q, lvl₀) :: rest) = none := by
          apply ladderFind_none_of_before lt Hirr o.price _ hs
          intro k hk
          rcases sorted_head_bound q (rest.map Prod.fst)
            (by simpa only [List.map_cons] using hs) k
            (by simpa only [List.map_cons] using hk) with h' | h'
          · subst h'; exact h1
          · exact Htrans _ _ _ h1 h'
        rw [this] at h
        exact Option.noConfusion h
      · have h1' : lt o.price q = false := by simpa using h1
        by_cases h2 : o.price = q
        · rw [ladderInsert_at lt o q lvl₀ rest h1' h2]
          subst h2
          rw [ladderFind_cons_eq] at h ⊢
          injection h with h
          subst h
          exact ⟨lvl₀ ++ [o], rfl, by simp [hx]⟩
        · rw [ladderInsert_after lt o q lvl₀ rest h1' h2]
          rw [ladderFind_cons_ne _ q lvl₀ rest (fun hc => h2 hc.symm)] at h
          rw [ladderFind_cons_ne _ q lvl₀ _ (fun hc => h2 hc.symm)]
          simp only [List.map_cons, List.pairwise_cons] at hs
          exact ih hs.2 lvl h hx
    · rw [ladderFind_ladderInsert_ne lt o p' hp ((q, lvl₀) :: rest)]
      exact ⟨lvl, h, hx⟩

/-! ### The reachable-state invariant -/

/-- All resting ids of one side ladder followed by the other. -/
theorem bookIds_def (b : OrderBook) :
    bookIds b = ladderIds b.bids ++ ladderIds b.asks := rfl

/-- Well-formedness of an `OrderBook` state.  Every state reachable from
the empty book satisfies it. -/
structure WF (b : OrderBook) : Prop where
  sorted : ∀ s : Bool,
    ((b.sameLadder s).map Prod.fst).Pairwise (fun a c => sideLt s a c = true)
  levelsNE : ∀ s : Bool, ∀ pl ∈ b.sameLadder s, pl.2 ≠ []
  levelPrice : ∀ s : Bool, ∀ pl ∈ b.sameLadder s, ∀ o ∈ pl.2, o.price = pl.1
  idsNodup : (bookIds b).Nodup
  idsLt : ∀ i ∈ bookIds b, i < b.next_id
  idsPos : ∀ i ∈ bookIds b, 0 < i
  nextPos : 0 < b.next_id
  idxSound : ∀ e ∈ b.order_index,
    ∃ lvl, ladderFind e.2.1 (b.sameLadder e.2.2) = some lvl ∧
      e.1 ∈ lvl.map Order.id
  notCrossed : ∀ pb ∈ bestBid b, ∀ pa ∈ bestAsk b, pb < pa

theorem WF_empty : WF emptyBook := by
  refine ⟨?_, ?_, ?_, ?_, ?_, ?_, ?_, ?_, ?_⟩
  · intro s; cases s <;> simp [OrderBook.sameLadder, emptyBook]
  · intro s; cases s <;> simp [OrderBook.sameLadder, emptyBook]
  · intro s; cases s <;> simp [OrderBook.sameLadder, emptyBook]
  · simp [bookIds_def, emptyBook]
  · intro i hi; simp [bookIds_def, emptyBook] at hi
  · intro i hi; simp [bookIds_def, emptyBook] at hi
  · exact Nat.one_pos
  · intro e he; simp [emptyBook] at he
  · intro pb hb; simp [bestBid, emptyBook] at hb

theorem WF_clear (b : OrderBook) (h : WF b) : WF b.clear := by
  refine ⟨?_, ?_, ?_, ?_, ?_, ?_, ?_, ?_, ?_⟩
  · intro s; cases s <;> simp [OrderBook.sameLadder, OrderBook.clear]
  · intro s; cases s <;> simp [OrderBook.sameLadder, OrderBook.clear]
  · intro s; cases s <;> simp [OrderBook.sameLadder, OrderBook.clear]
  · simp [bookIds_def, OrderBook.clear]
  · intro i hi; simp [bookIds_def, OrderBook.clear] at hi
  · intro i hi; simp [bookIds_def, OrderBook.clear] at hi
  · exact h.nextPos
  · intro e he; simp [OrderBook.clear] at he
  · intro pb hb; simp [bestBid, OrderBook.clear] at hb

/-! ### Side-surgery utilities -/

@[simp] theorem sameLadder_true (b : OrderBook) : b.sameLadder true = b.bids := rfl

@[simp] theorem sameLadder_false (b : OrderBook) : b.sameLadder false = b.asks := rfl

theorem oppLadder_eq (b : OrderBook) (s : Bool) :
    b.oppLadder s = b.sameLadder (!s) := by cases s <;> rfl

theorem setOpp_eq (b : OrderBook) (s : Bool) (L : Ladder) :
    b.setOpp s L = b.setSame (!s) L := by cases s <;> rfl

@[simp] theorem setSame_order_index (b : OrderBook) (s : Bool) (L : Ladder) :
    (b.setSame s L).order_index = b.order_index := by cases s <;> rfl

@[simp] theorem setSame_trades (b : OrderBook) (s : Bool) (L : Ladder) :
    (b.setSame s L).trades = b.trades := by cases s <;> rfl

@[simp] theorem setSame_next_id (b : OrderBook) (s : Bool) (L : Ladder) :
    (b.setSame s L).next_id = b.next_id := by cases s <;> rfl

theorem sameLadder_setSame_self (b : OrderBook) (s : Bool) (L : Ladder) :
    (b.setSame s L).sameLadder s = L := by cases s <;> rfl

theorem sameLadder_setSame_other (b : OrderBook) (s s' : Bool) (L : Ladder)
    (h : ¬ s' = s) : (b.setSame s L).sameLadder s' = b.sameLadder s' := by
  cases s <;> cases s' <;> first | rfl | exact absurd rfl h

theorem bookIds_eq (b : OrderBook) :
    bookIds b = ladderIds (b.sameLadder true) ++ ladderIds (b.sameLadder false) := rfl

theorem bookIds_setSame_sublist (b : OrderBook) (s : Bool) (L : Ladder)
    (hL : List.Sublist (ladderIds L) (ladderIds (b.sameLadder s))) :
    List.Sublist (bookIds (b.setSame s L)) (bookIds b) := by
  cases s
  · show List.Sublist (ladderIds b.bids ++ ladderIds L)
      (ladderIds b.bids ++ ladderIds b.asks)
    exact (List.Sublist.refl _).append (by simpa using hL)
  · show List.Sublist (ladderIds L ++ ladderIds b.asks)
      (ladderIds b.bids ++ ladderIds b.asks)
    have hL' : List.Sublist (ladderIds L) (ladderIds b.bids) := by simpa using hL
    exact hL'.append (List.Sublist.refl _)

theorem mem_bookIds_setSame (b : OrderBook) (s : Bool) (L : Ladder) (x : Nat) :
    x ∈ bookIds (b.setSame s L) ↔
      x ∈ ladderIds L ∨ x ∈ ladderIds (b.sameLadder (!s)) := by
  cases s <;> simp [bookIds_def, OrderBook.setSame] <;> tauto

theorem nodup_bookIds_setSame (b : OrderBook) (s : Bool) (L : Ladder)
    (h : (ladderIds L ++ ladderIds (b.sameLadder (!s))).Nodup) :
    (bookIds (b.setSame s L)).Nodup := by
  cases s
  · show (ladderIds b.bids ++ ladderIds L).Nodup
    exact List.nodup_append_comm.mp (by simpa using h)
  · show (ladderIds L ++ ladderIds b.asks).Nodup
    simpa using h

/-- The head of a sorted list bounds the head of any sublist of it. -/
theorem head_bound_of_sublist {R : Int → Int → Prop} (l₁ l₂ : List Int)
    (hsub : List.Sublist l₂ l₁) (hs : l₁.Pairwise R) :
    ∀ x ∈ l₂.head?, ∃ y, l₁.head? = some y ∧ (x = y ∨ R y x) := by
  intro x hx
  have hxmem : x ∈ l₁ := hsub.mem (List.mem_of_mem_head? hx)
  match l₁, hxmem with
  | y :: tl, hxmem =>
    exact ⟨y, rfl, sorted_head_bound y tl hs x hxmem⟩

/-- Replacing the order index by a subset of itself preserves
well-formedness. -/
theorem WF_sub_index (b : OrderBook) (idx' : IndexT) (h : WF b)
    (hsub : ∀ e ∈ idx', e ∈ b.order_index) :
    WF { b with order_index := idx' } := by
  refine ⟨h.sorted, h.levelsNE, h.levelPrice, h.idsNodup, h.idsLt, h.idsPos,
    h.nextPos, ?_, h.notCrossed⟩
  intro e he
  exact h.idxSound e (hsub e he)

theorem sameLadder_setIdx (b : OrderBook) (idx : IndexT) (s : Bool) :
    ({ b with order_index := idx } : OrderBook).sameLadder s = b.sameLadder s := by
  cases s <;> rfl

theorem setSameIdx_next_id (b : OrderBook) (s : Bool) (L : Ladder) (idx : IndexT) :
    ({ b.setSame s L with order_index := idx } : OrderBook).next_id = b.next_id := by
  cases s <;> rfl

/-- A successful cancellation preserves well-formedness. -/
theorem WF_cancelHit (b : OrderBook) (price : Int) (id : Nat) (s : Bool)
    (h : WF b) (lvl : Level)
    (hlf : ladderFind price (b.sameLadder s) = some lvl) :
    WF { b.setSame s (ladderCancel price id (b.sameLadder s)) with
         order_index := idxErase id b.order_index } := by
  have hidsSub : List.Sublist (ladderIds (ladderCancel price id (b.sameLadder s)))
      (ladderIds (b.sameLadder s)) := ladderIds_ladderCancel price id _
  have hkeysSub : List.Sublist
      ((ladderCancel price id (b.sameLadder s)).map Prod.fst)
      ((b.sameLadder s).map Prod.fst) := keys_ladderCancel price id _
  have hbookSub : List.Sublist
      (bookIds (b.setSame s (ladderCancel price id (b.sameLadder s)))) (bookIds b) :=
    bookIds_setSame_sublist b s _ hidsSub
  refine ⟨?_, ?_, ?_, ?_, ?_, ?_, ?_, ?_, ?_⟩
  · intro s'
    rw [sameLadder_setIdx]
    by_cases hss : s' = s
    · subst hss
      rw [sameLadder_setSame_self]
      exact List.Pairwise.sublist hkeysSub (h.sorted s')
    · rw [sameLadder_setSame_other b s s' _ hss]
      exact h.sorted s'
  · intro s'
    rw [sameLadder_setIdx]
    by_cases hss : s' = s
    · subst hss
      rw [sameLadder_setSame_self]
      exact nonempty_ladderCancel price id _ (h.levelsNE s')
    · rw [sameLadder_setSame_other b s s' _ hss]
      exact h.levelsNE s'
  · intro s'
    rw [sameLadder_setIdx]
    by_cases hss : s' = s
    · subst hss
      rw [sameLadder_setSame_self]
      exact levelPrice_ladderCancel price id _ (h.levelPrice s')
    · rw [sameLadder_setSame_other b s s' _ hss]
      exact h.levelPrice s'
  · exact hbookSub.nodup h.idsNodup
  · intro i hi
    rw [setSameIdx_next_id]
    exact h.idsLt i (hbookSub.mem hi)
  · intro i hi
    exact h.idsPos i (hbookSub.mem hi)
  · rw [setSameIdx_next_id]
    exact h.nextPos
  · intro e he
    obtain ⟨he1, he2⟩ := (mem_idxErase e id b.order_index).mp he
    obtain ⟨lvl₀, hf₀, hm₀⟩ := h.idxSound e he1
    rw [sameLadder_setIdx]
    by_cases hss : e.2.2 = s
    · rw [hss, sameLadder_setSame_self]
      rw [hss] at hf₀
      by_cases hpp : e.2.1 = price
      · rw [hpp] at hf₀
        rw [hlf] at hf₀
        injection hf₀ with hf₀
        subst hf₀
        have hm' : e.1 ∈ (cancelLevel id lvl).map Order.id :=
          levelIds_cancelLevel id lvl e.1 hm₀ he2
        have hne' : ¬ cancelLevel id lvl = [] := by
          intro hc; rw [hc] at hm'; simp at hm'
        refine ⟨cancelLevel id lvl, ?_, hm'⟩
        rw [hpp]
        exact ladderFind_ladderCancel_self price id _ lvl hlf hne'
      · refine ⟨lvl₀, ?_, hm₀⟩
        rw [ladderFind_ladderCancel_ne price e.2.1 id hpp]
        exact hf₀
    · rw [sameLadder_setSame_other b s e.2.2 _ hss]
      exact ⟨lvl₀, hf₀, hm₀⟩
  · intro pb hpb pa hpa
    cases s
    · -- asks were cancelled
      have hb : bestBid b = some pb := hpb
      obtain ⟨y, hy, hrel⟩ := head_bound_of_sublist _ _ hkeysSub (h.sorted false) pa hpa
      have hya : bestAsk b = some y := hy
      have h0 := h.notCrossed pb hb y hya
      have : y ≤ pa := by
        rcases hrel with h' | h'
        · omega
        · have : y < pa := by simpa [sideLt] using h'
          omega
      omega
    · -- bids were cancelled
      obtain ⟨y, hy, hrel⟩ := head_bound_of_sublist _ _ hkeysSub (h.sorted true) pb hpb
      have hyb : bestBid b = some y := hy
      have ha : bestAsk b = some pa := hpa
      have h0 := h.notCrossed y hyb pa ha
      have : pb ≤ y := by
        rcases hrel with h' | h'
        · omega
        · have : pb < y := by simpa [sideLt] using h'
          omega
      omega

/-- `cancel` preserves well-formedness. -/
theorem WF_cancel (b : OrderBook) (id : Nat) (h : WF b) : WF (cancel b id).2 := by
  unfold cancel
  rcases hf : idxFind b.order_index id with _ | ⟨price, is_bid⟩
  · exact h
  · dsimp only
    rcases hlf : ladderFind price (if is_bid then b.bids else b.asks) with _ | lvl
    · simp only [hlf]
      exact WF_sub_index b _ h
        (fun e he => ((mem_idxErase e id b.order_index).mp he).1)
    · simp only [hlf]
      by_cases hfi : (lvl.find? (fun o => o.id == id)).isSome = true
      · rw [if_pos hfi]
        exact WF_cancelHit b price id is_bid h lvl hlf
      · rw [if_neg hfi]
        exact WF_sub_index b _ h
          (fun e he => ((mem_idxErase e id b.order_index).mp he).1)

/-! ### Matching-surgery preservation -/

theorem mem_bookIds_of_side (c : OrderBook) (s : Bool) (x : Nat)
    (hx : x ∈ ladderIds (c.sameLadder s)) : x ∈ bookIds c := by
  cases s <;> simp [bookIds_def] at hx ⊢ <;> tauto

theorem nodup_sideIds (c : OrderBook) (h : WF c) (s : Bool) :
    (ladderIds (c.sameLadder s) ++ ladderIds (c.sameLadder (!s))).Nodup := by
  cases s
  · exact List.nodup_append_comm.mp h.idsNodup
  · exact h.idsNodup

theorem mem_sideIds_iff (c : OrderBook) (s : Bool) (x : Nat) :
    x ∈ ladderIds (c.sameLadder s) ++ ladderIds (c.sameLadder (!s)) ↔
      x ∈ bookIds c := by
  cases s <;> simp [bookIds_def] <;> tauto

theorem sideLt_of_not_cross (ib : Bool) (ip p₀ : Int)
    (h : cross ib ip p₀ = false) : sideLt (!ib) ip p₀ = true := by
  cases ib <;> simp [cross, sideLt] at h ⊢ <;> omega

theorem sameLadder_setFull (b : OrderBook) (s : Bool) (L : Ladder)
    (t : List Trade) (i : IndexT) (n : Nat) (s' : Bool) :
    ({ b.setSame s L with trades := t, order_index := i, next_id := n } :
      OrderBook).sameLadder s' = (b.setSame s L).sameLadder s' := by
  cases s' <;> rfl

theorem bool_ne_not (s : Bool) : ¬ s = !s := by cases s <;> simp

/-- Shrinking one side's key list keeps the book uncrossed. -/
theorem notCrossed_of_shrink (b : OrderBook) (s : Bool) (L' : Ladder)
    (h : WF b)
    (hk : List.Sublist (L'.map Prod.fst) ((b.sameLadder s).map Prod.fst)) :
    ∀ pb ∈ bestBid (b.setSame s L'), ∀ pa ∈ bestAsk (b.setSame s L'), pb < pa := by
  intro pb hpb pa hpa
  cases s
  · -- asks shrink
    have hb : bestBid b = some pb := hpb
    obtain ⟨y, hy, hrel⟩ := head_bound_of_sublist _ _ hk (h.sorted false) pa hpa
    have h0 := h.notCrossed pb hb y hy
    rcases hrel with h' | h'
    · omega
    · have : y < pa := by simpa [sideLt] using h'
      omega
  · -- bids shrink
    obtain ⟨y, hy, hrel⟩ := head_bound_of_sublist _ _ hk (h.sorted true) pb hpb
    have ha : bestAsk b = some pa := hpa
    have h0 := h.notCrossed y hy pa ha
    rcases hrel with h' | h'
    · omega
    · have : pb < y := by simpa [sideLt] using h'
      omega

/-- The post-match state (opposing ladder consumed, trades appended,
filled ids evicted from the index, fresh id consumed) is well-formed. -/
theorem WF_afterMatch (b : OrderBook) (ib : Bool) (ip q : Int) (h : WF b) :
    WF { b.setSame (!ib)
          (matchLadder ib b.next_id ip q (b.sameLadder (!ib))).rest with
         trades := b.trades ++
          (matchLadder ib b.next_id ip q (b.sameLadder (!ib))).trades,
         order_index := idxEraseMany
          (matchLadder ib b.next_id ip q (b.sameLadder (!ib))).removed
          b.order_index,
         next_id := b.next_id + 1 } := by
  have hIds := matchLadder_ids ib b.next_id ip (b.sameLadder (!ib)) q
  have hRestSub : List.Sublist
      (ladderIds (matchLadder ib b.next_id ip q (b.sameLadder (!ib))).rest)
      (ladderIds (b.sameLadder (!ib))) := by
    rw [← hIds]
    exact List.sublist_append_right _ _
  have hKeysSub : List.Sublist
      ((matchLadder ib b.next_id ip q (b.sameLadder (!ib))).rest.map Prod.fst)
      ((b.sameLadder (!ib)).map Prod.fst) :=
    (matchLadder_keys_suffix ib b.next_id ip (b.sameLadder (!ib)) q).sublist
  have hbookSub : List.Sublist
      (bookIds (b.setSame (!ib)
        (matchLadder ib b.next_id ip q (b.sameLadder (!ib))).rest))
      (bookIds b) := bookIds_setSame_sublist b (!ib) _ hRestSub
  refine ⟨?_, ?_, ?_, ?_, ?_, ?_, ?_, ?_, ?_⟩
  · intro s'
    rw [sameLadder_setFull]
    by_cases hss : s' = !ib
    · subst hss
      rw [sameLadder_setSame_self]
      exact List.Pairwise.sublist hKeysSub (h.sorted (!ib))
    · rw [sameLadder_setSame_other b (!ib) s' _ hss]
      exact h.sorted s'
  · intro s'
    rw [sameLadder_setFull]
    by_cases hss : s' = !ib
    · subst hss
      rw [sameLadder_setSame_self]
      exact matchLadder_nonempty ib b.next_id ip _ q (h.levelsNE (!ib))
    · rw [sameLadder_setSame_other b (!ib) s' _ hss]
      exact h.levelsNE s'
  · intro s'
    rw [sameLadder_setFull]
    by_cases hss : s' = !ib
    · subst hss
      rw [sameLadder_setSame_self]
      exact matchLadder_levelPrice ib b.next_id ip _ q (h.levelPrice (!ib))
    · rw [sameLadder_setSame_other b (!ib) s' _ hss]
      exact h.levelPrice s'
  · exact hbookSub.nodup h.idsNodup
  · intro i hi
    have := h.idsLt i (hbookSub.mem hi)
    show i < b.next_id + 1
    omega
  · intro i hi
    exact h.idsPos i (hbookSub.mem hi)
  · show 0 < b.next_id + 1
    omega
  · intro e he
    obtain ⟨he1, he2⟩ := (mem_idxEraseMany e _ b.order_index).mp he
    obtain ⟨lvl₀, hf₀, hm₀⟩ := h.idxSound e he1
    rw [sameLadder_setFull]
    by_cases hss : e.2.2 = !ib
    · rw [hss, sameLadder_setSame_self]
      rw [hss] at hf₀
      exact matchLadder_survive ib b.next_id ip _ q e.2.1 lvl₀ e.1 hf₀ hm₀ he2
    · rw [sameLadder_setSame_other b (!ib) e.2.2 _ hss]
      exact ⟨lvl₀, hf₀, hm₀⟩
  · intro pb hpb pa hpa
    exact notCrossed_of_shrink b (!ib) _ h hKeysSub pb hpb pa hpa

/-- Resting a fresh, uncrossed residual order preserves well-formedness. -/
theorem WF_insert (c : OrderBook) (ib : Bool) (o : Order) (h : WF c)
    (hfresh : o.id ∉ bookIds c) (hlt : o.id < c.next_id) (hpos : 0 < o.id)
    (hsafe : ∀ y ∈ ((c.sameLadder (!ib)).map Prod.fst).head?,
      sideLt (!ib) o.price y = true) :
    WF { c.setSame ib (ladderInsert (sideLt ib) o (c.sameLadder ib)) with
         order_index := idxInsert o.id o.price ib c.order_index } := by
  have hPerm := ladderIds_ladderInsert (sideLt ib) o (c.sameLadder ib)
  refine ⟨?_, ?_, ?_, ?_, ?_, ?_, ?_, ?_, ?_⟩
  · intro s'
    rw [sameLadder_setIdx]
    by_cases hss : s' = ib
    · subst hss
      rw [sameLadder_setSame_self]
      exact sorted_ladderInsert (sideLt s') (sideLt_trans s') (sideLt_total s')
        o _ (h.sorted s')
    · rw [sameLadder_setSame_other c ib s' _ hss]
      exact h.sorted s'
  · intro s'
    rw [sameLadder_setIdx]
    by_cases hss : s' = ib
    · subst hss
      rw [sameLadder_setSame_self]
      exact nonempty_ladderInsert (sideLt s') o _ (h.levelsNE s')
    · rw [sameLadder_setSame_other c ib s' _ hss]
      exact h.levelsNE s'
  · intro s'
    rw [sameLadder_setIdx]
    by_cases hss : s' = ib
    · subst hss
      rw [sameLadder_setSame_self]
      exact levelPrice_ladderInsert (sideLt s') o _ (h.levelPrice s')
    · rw [sameLadder_setSame_other c ib s' _ hss]
      exact h.levelPrice s'
  · apply nodup_bookIds_setSame
    apply ((hPerm.append_right (ladderIds (c.sameLadder (!ib)))).symm).nodup
    show (o.id :: (ladderIds (c.sameLadder ib) ++ ladderIds (c.sameLadder (!ib)))).Nodup
    rw [List.nodup_cons]
    constructor
    · intro hc
      exact hfresh ((mem_sideIds_iff c ib o.id).mp hc)
    · exact nodup_sideIds c h ib
  · intro i hi
    rw [setSameIdx_next_id]
    rcases (mem_bookIds_setSame c ib _ i).mp hi with hx | hx
    · rcases List.mem_cons.mp (hPerm.mem_iff.mp hx) with h' | h'
      · subst h'; exact hlt
      · exact h.idsLt i (mem_bookIds_of_side c ib i h')
    · exact h.idsLt i (mem_bookIds_of_side c (!ib) i hx)
  · intro i hi
    rcases (mem_bookIds_setSame c ib _ i).mp hi with hx | hx
    · rcases List.mem_cons.mp (hPerm.mem_iff.mp hx) with h' | h'
      · subst h'; exact hpos
      · exact h.idsPos i (mem_bookIds_of_side c ib i h')
    · exact h.idsPos i (mem_bookIds_of_side c (!ib) i hx)
  · rw [setSameIdx_next_id]
    exact h.nextPos
  · intro e he
    rw [sameLadder_setIdx]
    rcases (mem_idxInsert e o.id o.price ib c.order_index).mp he with he | ⟨he1, _⟩
    · subst he
      rw [sameLadder_setSame_self]
      exact ladderFind_ladderInsert_self (sideLt ib) o (c.sameLadder ib)
    · obtain ⟨lvl₀, hf₀, hm₀⟩ := h.idxSound e he1
      by_cases hss : e.2.2 = ib
      · rw [hss, sameLadder_setSame_self]
        rw [hss] at hf₀
        exact ladderFind_ladderInsert_mem (sideLt ib) (sideLt_trans ib)
          (sideLt_irrefl ib) o e.2.1 e.1 _ (h.sorted ib) lvl₀ hf₀ hm₀
      · rw [sameLadder_setSame_other c ib e.2.2 _ hss]
        exact ⟨lvl₀, hf₀, hm₀⟩
  · intro pb hpb pa hpa
    cases ib
    · -- a sell order rests: the ask ladder grows
      have hb : bestBid c = some pb := hpb
      have hmem : pa ∈ ((ladderInsert (sideLt false) o (c.sameLadder false)).map
          Prod.fst) := List.mem_of_mem_head? hpa
      rcases keys_ladderInsert (sideLt false) o _ pa hmem with h' | h'
      · subst h'
        have := hsafe pb hb
        simpa [sideLt] using this
      · simp only [sameLadder_false] at h'
        have hne : c.asks ≠ [] := by
          intro hc; rw [hc] at h'; simp at h'
        obtain ⟨hd, tl, hAsks⟩ := List.exists_cons_of_ne_nil hne
        obtain ⟨k, lvlk⟩ := hd
        have hsorted := h.sorted false
        simp only [sameLadder_false, hAsks] at hsorted
        rw [hAsks] at h'
        have hbnd := sorted_head_bound k (tl.map Prod.fst)
          (by simpa only [List.map_cons] using hsorted) pa
          (by simpa only [List.map_cons] using h')
        have ha : bestAsk c = some k := by
          simp [bestAsk, hAsks]
        have h0 := h.notCrossed pb hb k ha
        rcases hbnd with h'' | h''
        · omega
        · have : k < pa := by simpa [sideLt] using h''
          omega
    · -- a buy order rests: the bid ladder grows
      have ha : bestAsk c = some pa := hpa
      have hmem : pb ∈ ((ladderInsert (sideLt true) o (c.sameLadder true)).map
          Prod.fst) := List.mem_of_mem_head? hpb
      rcases keys_ladderInsert (sideLt true) o _ pb hmem with h' | h'
      · subst h'
        have := hsafe pa ha
        simpa [sideLt] using this
      · simp only [sameLadder_true] at h'
        have hne : c.bids ≠ [] := by
          intro hc; rw [hc] at h'; simp at h'
        obtain ⟨hd, tl, hBids⟩ := List.exists_cons_of_ne_nil hne
        obtain ⟨k, lvlk⟩ := hd
        have hsorted := h.sorted true
        simp only [sameLadder_true, hBids] at hsorted
        rw [hBids] at h'
        have hbnd := sorted_head_bound k (tl.map Prod.fst)
          (by simpa only [List.map_cons] using hsorted) pb
          (by simpa only [List.map_cons] using h')
        have hbb : bestBid c = some k := by
          simp [bestBid, hBids]
        have h0 := h.notCrossed k hbb pa ha
        rcases hbnd with h'' | h''
        · omega
        · have : pb < k := by simpa [sideLt] using h''
          omega

/-- `add_market` preserves well-formedness. -/
theorem WF_add_market (b : OrderBook) (q : Int) (ib : Bool) (h : WF b) :
    WF (add_market b q ib).2 := by
  unfold add_market
  by_cases hq : q ≤ 0
  · rw [if_pos hq]
    exact h
  · rw [if_neg hq]
    dsimp only
    rw [oppLadder_eq, setOpp_eq]
    exact WF_afterMatch b ib (mktPrice ib) q h

/-- `add_limit` preserves well-formedness. -/
theorem WF_add_limit (b : OrderBook) (p q : Int) (ib : Bool) (h : WF b) :
    WF (add_limit b p q ib).2 := by
  unfold add_limit
  by_cases hq : q ≤ 0
  · rw [if_pos hq]
    exact h
  · rw [if_neg hq]
    dsimp only
    rw [oppLadder_eq, setOpp_eq]
    by_cases hres :
        0 < (matchLadder ib b.next_id p q (b.sameLadder (!ib))).qty
    · rw [if_pos hres]
      dsimp only
      have hWF1 := WF_afterMatch b ib p q h
      refine WF_insert _ ib _ hWF1 ?_ ?_ ?_ ?_
      · intro hc
        have hsub : List.Sublist
            (bookIds ({ b.setSame (!ib)
              (matchLadder ib b.next_id p q (b.sameLadder (!ib))).rest with
              trades := b.trades ++
                (matchLadder ib b.next_id p q (b.sameLadder (!ib))).trades,
              order_index := idxEraseMany
                (matchLadder ib b.next_id p q (b.sameLadder (!ib))).removed
                b.order_index,
              next_id := b.next_id + 1 } : OrderBook)) (bookIds b) := by
          apply bookIds_setSame_sublist
          rw [← matchLadder_ids ib b.next_id p (b.sameLadder (!ib)) q]
          exact List.sublist_append_right _ _
        have := h.idsLt b.next_id (hsub.mem hc)
        omega
      · show b.next_id < b.next_id + 1
        omega
      · exact h.nextPos
      · intro y hy
        rw [sameLadder_setFull, sameLadder_setSame_self] at hy
        rcases matchLadder_stop_reason ib b.next_id p (b.sameLadder (!ib)) q
            hres with hnil | ⟨p₀, lvl₀, rest₀, hrest, hcr⟩
        · rw [hnil] at hy
          simp at hy
        · rw [hrest] at hy
          simp only [List.map_cons, List.head?_cons, Option.mem_def,
            Option.some.injEq] at hy
          subst hy
          exact sideLt_of_not_cross ib p p₀ hcr
    · rw [if_neg hres]
      exact WF_afterMatch b ib p q h

/-- Every state reachable by the driver is well-formed. -/
theorem WF_step (s : OrderBook × Acct) (op : Op) (h : WF s.1) :
    WF (step s op).1 := by
  cases op with
  | limit p q ib => exact WF_add_limit s.1 p q ib h
  | market q ib => exact WF_add_market s.1 q ib h
  | cancel id => exact WF_cancel s.1 id h
  | clear => exact WF_clear s.1 h

theorem WF_foldl (ops : List Op) :
    ∀ s : OrderBook × Acct, WF s.1 → WF (ops.foldl step s).1 := by
  induction ops with
  | nil => intro s h; exact h
  | cons op rest ih =>
    intro s h
    exact ih (step s op) (WF_step s op h)

/-- Every state reachable from the empty book is well-formed. -/
theorem WF_run (ops : List Op) : WF (run ops).1 :=
  WF_foldl ops (emptyBook, emptyAcct) WF_empty

/-! ### Conservation of quantity -/

theorem restingTotal_setSame (b : OrderBook) (s : Bool) (L : Ladder) :
    restingTotal (b.setSame s L) =
      restingTotal b - ladderQty (b.sameLadder s) + ladderQty L := by
  cases s <;> simp [restingTotal, OrderBook.setSame] <;> ring

theorem tradesTotal_setSame (b : OrderBook) (s : Bool) (L : Ladder) :
    tradesTotal (b.setSame s L) = tradesTotal b := by
  cases s <;> rfl

theorem restingTotal_setIdx (b : OrderBook) (idx : IndexT) :
    restingTotal ({ b with order_index := idx } : OrderBook) = restingTotal b := rfl

theorem tradesTotal_setIdx (b : OrderBook) (idx : IndexT) :
    tradesTotal ({ b with order_index := idx } : OrderBook) = tradesTotal b := rfl

theorem afterMatch_resting (b : OrderBook) (ib : Bool) (ip q : Int) :
    restingTotal
      ({ b.setSame (!ib) (matchLadder ib b.next_id ip q (b.sameLadder (!ib))).rest with
         trades := b.trades ++
           (matchLadder ib b.next_id ip q (b.sameLadder (!ib))).trades,
         order_index := idxEraseMany
           (matchLadder ib b.next_id ip q (b.sameLadder (!ib))).removed b.order_index,
         next_id := b.next_id + 1 } : OrderBook) =
      restingTotal b - ladderQty (b.sameLadder (!ib)) +
        ladderQty (matchLadder ib b.next_id ip q (b.sameLadder (!ib))).rest := by
  show restingTotal (b.setSame (!ib) _) = _
  exact restingTotal_setSame b (!ib) _

theorem afterMatch_trades (b : OrderBook) (ib : Bool) (ip q : Int) :
    tradesTotal
      ({ b.setSame (!ib) (matchLadder ib b.next_id ip q (b.sameLadder (!ib))).rest with
         trades := b.trades ++
           (matchLadder ib b.next_id ip q (b.sameLadder (!ib))).trades,
         order_index := idxEraseMany
           (matchLadder ib b.next_id ip q (b.sameLadder (!ib))).removed b.order_index,
         next_id := b.next_id + 1 } : OrderBook) =
      tradesTotal b +
        tradesQty (matchLadder ib b.next_id ip q (b.sameLadder (!ib))).trades := by
  show tradesQty (b.trades ++ _) = _
  rw [tradesQty_append]
  rfl

/-- One `add_limit` call adds exactly the accepted quantity to the
conserved total `resting + 2·trades`. -/
theorem conserve_add_limit (b : OrderBook) (p q : Int) (ib : Bool) :
    restingTotal (add_limit b p q ib).2 + 2 * tradesTotal (add_limit b p q ib).2 =
      restingTotal b + 2 * tradesTotal b + (if 0 < q then q else 0) := by
  unfold add_limit
  by_cases hq : q ≤ 0
  · have hq' : ¬ 0 < q := by omega
    rw [if_pos hq, if_neg hq']
    ring
  · have hq' : 0 < q := by omega
    rw [if_neg hq, if_pos hq']
    dsimp only
    rw [oppLadder_eq, setOpp_eq]
    have hcons := matchLadder_conserve ib b.next_id p (b.sameLadder (!ib)) q
    have hlq := matchLadder_ladderQty ib b.next_id p (b.sameLadder (!ib)) q
    have hr1 := afterMatch_resting b ib p q
    have ht1 := afterMatch_trades b ib p q
    by_cases hres : 0 < (matchLadder ib b.next_id p q (b.sameLadder (!ib))).qty
    · rw [if_pos hres]
      dsimp only
      rw [restingTotal_setIdx, tradesTotal_setIdx, restingTotal_setSame,
        tradesTotal_setSame, ladderQty_ladderInsert, ht1, hr1]
      dsimp only
      omega
    · rw [if_neg hres]
      have hzero : (matchLadder ib b.next_id p q (b.sameLadder (!ib))).qty = 0 := by
        have := matchLadder_qty_nonneg ib b.next_id p (b.sameLadder (!ib)) q
          (by omega)
        omega
      rw [hr1, ht1]
      omega

/-- One `add_market` call adds exactly the accepted quantity to the
conserved total `resting + 2·trades + dropped residual`. -/
theorem conserve_add_market (b : OrderBook) (q : Int) (ib : Bool) :
    restingTotal (add_market b q ib).2 + 2 * tradesTotal (add_market b q ib).2 +
        marketResidual b q ib =
      restingTotal b + 2 * tradesTotal b + (if 0 < q then q else 0) := by
  unfold add_market marketResidual
  by_cases hq : q ≤ 0
  · have hq' : ¬ 0 < q := by omega
    rw [if_pos hq, if_pos hq, if_neg hq']
  · have hq' : 0 < q := by omega
    rw [if_neg hq, if_neg hq, if_pos hq']
    dsimp only
    rw [oppLadder_eq, setOpp_eq]
    have hcons := matchLadder_conserve ib b.next_id (mktPrice ib)
      (b.sameLadder (!ib)) q
    have hlq := matchLadder_ladderQty ib b.next_id (mktPrice ib)
      (b.sameLadder (!ib)) q
    have hr1 := afterMatch_resting b ib (mktPrice ib) q
    have ht1 := afterMatch_trades b ib (mktPrice ib) q
    rw [hr1, ht1]
    omega

/-- The quantity that a successful cancel removes is the found order's
quantity. -/
theorem cancelTarget_eq (b : OrderBook) (id : Nat) (price : Int) (is_bid : Bool)
    (lvl : Level) (o : Order)
    (hf : idxFind b.order_index id = some (price, is_bid))
    (hlf : ladderFind price (if is_bid then b.bids else b.asks) = some lvl)
    (ho : lvl.find? (fun o => o.id == id) = some o) :
    cancelTarget b id = o.qty := by
  unfold cancelTarget
  rw [hf]
  dsimp only
  rw [hlf]
  dsimp only
  rw [ho]

/-- A cancel removes exactly `cancelTarget` from the resting total and
leaves the trade log unchanged. -/
theorem conserve_cancel (b : OrderBook) (id : Nat) :
    restingTotal (cancel b id).2 =
      restingTotal b - (if (cancel b id).1 then cancelTarget b id else 0) ∧
    tradesTotal (cancel b id).2 = tradesTotal b := by
  unfold cancel
  rcases hf : idxFind b.order_index id with _ | ⟨price, is_bid⟩
  · simp
  · dsimp only
    rcases hlf : ladderFind price (if is_bid then b.bids else b.asks) with _ | lvl
    · exact ⟨by simp [restingTotal], rfl⟩
    · dsimp only
      by_cases hfi : (lvl.find? (fun o => o.id == id)).isSome = true
      · rw [if_pos hfi]
        rcases ho : lvl.find? (fun o => o.id == id) with _ | o
        · rw [ho] at hfi; simp at hfi
        · have htgt := cancelTarget_eq b id price is_bid lvl o hf hlf ho
          have hlc := levelQty_cancelLevel id lvl o ho
          dsimp only
          rw [if_pos rfl, htgt]
          cases is_bid
          · rw [if_neg (by simp)] at hlf
            have hlq := ladderQty_ladderCancel price id b.asks lvl hlf
            constructor
            · show ladderQty b.bids + ladderQty (ladderCancel price id b.asks) =
                ladderQty b.bids + ladderQty b.asks - o.qty
              omega
            · rfl
          · rw [if_pos rfl] at hlf
            have hlq := ladderQty_ladderCancel price id b.bids lvl hlf
            constructor
            · show ladderQty (ladderCancel price id b.bids) + ladderQty b.asks =
                ladderQty b.bids + ladderQty b.asks - o.qty
              omega
            · rfl
      · rw [if_neg hfi]
        exact ⟨by simp [restingTotal], rfl⟩

/-- The conserved ledger equation: all accepted quantity is accounted for
by resting orders, both legs of each trade, dropped market residual, and
cancelled quantity. -/
def ConsInv (s : OrderBook × Acct) : Prop :=
  s.2.submitted =
    restingTotal s.1 + 2 * tradesTotal s.1 + s.2.dropped + s.2.cancelled

theorem ConsInv_step (s : OrderBook × Acct) (op : Op) (hop : ¬ op = Op.clear)
    (h : ConsInv s) : ConsInv (step s op) := by
  cases op with
  | limit p q ib =>
    have hc := conserve_add_limit s.1 p q ib
    unfold ConsInv at h ⊢
    dsimp only [step]
    omega
  | market q ib =>
    have hc := conserve_add_market s.1 q ib
    unfold ConsInv at h ⊢
    dsimp only [step]
    omega
  | cancel id =>
    obtain ⟨h1, h2⟩ := conserve_cancel s.1 id
    unfold ConsInv at h ⊢
    dsimp only [step]
    rw [h1, h2]
    omega
  | clear => exact absurd rfl hop

theorem ConsInv_foldl :
    ∀ ops : List Op, Op.clear ∉ ops →
      ∀ s : OrderBook × Acct, ConsInv s → ConsInv (ops.foldl step s) := by
  intro ops
  induction ops with
  | nil => intro _ s h; exact h
  | cons op rest ih =>
    intro hop s h
    have h1 : ¬ op = Op.clear := fun hc => hop (by rw [hc]; exact List.mem_cons_self _ _)
    have h2 : Op.clear ∉ rest := fun hc => hop (List.mem_cons_of_mem _ hc)
    exact ih h2 (step s op) (ConsInv_step s op h1 h)

/-! ### The claims -/

/-- C1 (corrected): the conservation equation as stated in the spec counts
each trade's quantity once, but a trade consumes quantity from both the
buy side and the sell side; this concrete two-order run (ask 50, then
crossing bid 30) leaves submitted = 80 while resting + trades + dropped +
cancelled = 20 + 30 + 0 + 0 = 50, refuting the claim as stated. -/
theorem C1_counterexample :
    Op.clear ∉ [Op.limit 100 50 false, Op.limit 100 30 true] ∧
    (run [Op.limit 100 50 false, Op.limit 100 30 true]).2.submitted = 80 ∧
    restingTotal (run [Op.limit 100 50 false, Op.limit 100 30 true]).1 = 20 ∧
    tradesTotal (run [Op.limit 100 50 false, Op.limit 100 30 true]).1 = 30 ∧
    (run [Op.limit 100 50 false, Op.limit 100 30 true]).2.dropped = 0 ∧
    (run [Op.limit 100 50 false, Op.limit 100 30 true]).2.cancelled = 0 ∧
    ¬ ((run [Op.limit 100 50 false, Op.limit 100 30 true]).2.submitted =
        restingTotal (run [Op.limit 100 50 false, Op.limit 100 30 true]).1 +
        tradesTotal (run [Op.limit 100 50 false, Op.limit 100 30 true]).1 +
        (run [Op.limit 100 50 false, Op.limit 100 30 true]).2.dropped +
        (run [Op.limit 100 50 false, Op.limit 100 30 true]).2.cancelled) := by
  decide

/-- C1 (amended): after any sequence of `add_limit`, `add_market` and
`cancel` calls from the empty book, the sum of accepted submitted
quantities equals the resting quantity plus TWICE the recorded trade
quantity (each trade consumes quantity from both sides) plus the dropped
market residual plus the quantity removed by successful cancels. -/
theorem C1_conservation (ops : List Op) (h : Op.clear ∉ ops) :
    (run ops).2.submitted =
      restingTotal (run ops).1 + 2 * tradesTotal (run ops).1 +
        (run ops).2.dropped + (run ops).2.cancelled :=
  ConsInv_foldl ops h (emptyBook, emptyAcct)
    (by unfold ConsInv; simp [emptyBook, emptyAcct, restingTotal, tradesTotal,
      tradesQty])

/-- Witness for C1: the amended conservation equation evaluated on a
concrete run with a trade, a dropped market residual and a cancel. -/
theorem C1_conservation_witness :
    Op.clear ∉ [Op.limit 100 50 false, Op.limit 100 30 true,
      Op.market 40 true, Op.cancel 1] ∧
    (run [Op.limit 100 50 false, Op.limit 100 30 true,
      Op.market 40 true, Op.cancel 1]).2.submitted =
      restingTotal (run [Op.limit 100 50 false, Op.limit 100 30 true,
        Op.market 40 true, Op.cancel 1]).1 +
      2 * tradesTotal (run [Op.limit 100 50 false, Op.limit 100 30 true,
        Op.market 40 true, Op.cancel 1]).1 +
      (run [Op.limit 100 50 false, Op.limit 100 30 true,
        Op.market 40 true, Op.cancel 1]).2.dropped +
      (run [Op.limit 100 50 false, Op.limit 100 30 true,
        Op.market 40 true, Op.cancel 1]).2.cancelled :=
  ⟨by decide, C1_conservation _ (by decide)⟩

/-- C2: in every state reachable from the empty book by `add_limit`,
`add_market`, `cancel` and `clear`, the best bid is strictly below the
best ask whenever both sides are non-empty. -/
theorem C2_no_crossed_book (ops : List Op) (pb pa : Int)
    (hb : bestBid (run ops).1 = some pb) (ha : bestAsk (run ops).1 = some pa) :
    pb < pa :=
  (WF_run ops).notCrossed pb hb pa ha

/-- Witness for C2: a concrete run with both sides resting. -/
theorem C2_no_crossed_book_witness :
    bestBid (run [Op.limit 100 5 true, Op.limit 101 5 false]).1 = some 100 ∧
    bestAsk (run [Op.limit 100 5 true, Op.limit 101 5 false]).1 = some 101 ∧
    (100 : Int) < 101 :=
  ⟨by decide, by decide,
    C2_no_crossed_book [Op.limit 100 5 true, Op.limit 101 5 false] 100 101
      (by decide) (by decide)⟩

/-- C3: price-time (FIFO) priority of the level-matching loop.  The ids
erased are exactly the level's first orders in arrival order; the trades
hit the resting orders in arrival order; every trade except possibly the
last consumes its resting order's entire quantity (so `o1` is fully
consumed before any trade touches `o2`); and the surviving queue is the
original queue truncated from the front (with at most the new front order
partially reduced), never reordered. -/
theorem C3_fifo_priority (ib : Bool) (i : Nat) (p : Int) (lvl : Level) (q : Int) :
    (matchLevel ib i p q lvl).removed =
      ((lvl.take (matchLevel ib i p q lvl).removed.length).map Order.id) ∧
    (matchLevel ib i p q lvl).trades.map (restingSideId ib) =
      ((lvl.take (matchLevel ib i p q lvl).trades.length).map Order.id) ∧
    (∀ j, j + 1 < (matchLevel ib i p q lvl).trades.length →
      ((matchLevel ib i p q lvl).trades.map Trade.qty)[j]? =
        (lvl.map Order.qty)[j]?) ∧
    ((matchLevel ib i p q lvl).rest =
        lvl.drop (matchLevel ib i p q lvl).removed.length ∨
      ∃ r rest' d,
        lvl.drop (matchLevel ib i p q lvl).removed.length = r :: rest' ∧
        0 < d ∧ d < r.qty ∧
        (matchLevel ib i p q lvl).rest = { r with qty := r.qty - d } :: rest') :=
  ⟨matchLevel_removed_take ib i p lvl q, matchLevel_trades_take ib i p lvl q,
    matchLevel_trades_full ib i p lvl q, matchLevel_rest_drop ib i p lvl q⟩

/-- C7: non-positive quantity is rejected with the sentinel id 0 and no
state change whatsoever (book, ladders, index, trade log and id counter
all unchanged), for both limit and market submissions, at any state. -/
theorem C7_reject_nonpositive (b : OrderBook) (p q : Int) (ib : Bool)
    (h : q ≤ 0) :
    add_limit b p q ib = (0, b) ∧ add_market b q ib = (0, b) := by
  unfold add_limit add_market
  rw [if_pos h, if_pos h]
  exact ⟨rfl, rfl⟩

/-- Witness for C7: rejection of a zero-quantity submission on a concrete
book. -/
theorem C7_reject_nonpositive_witness :
    (0 : Int) ≤ 0 ∧
    add_limit (run [Op.limit 100 5 true]).1 101 0 false =
      (0, (run [Op.limit 100 5 true]).1) ∧
    add_market (run [Op.limit 100 5 true]).1 0 false =
      (0, (run [Op.limit 100 5 true]).1) :=
  ⟨le_refl 0, C7_reject_nonpositive (run [Op.limit 100 5 true]).1 101 0 false
    (le_refl 0)⟩

/-! ### Projection lemmas for accepted submissions -/

theorem add_limit_fst (b : OrderBook) (p q : Int) (ib : Bool) (h : ¬ q ≤ 0) :
    (add_limit b p q ib).1 = b.next_id := by
  unfold add_limit
  rw [if_neg h]
  dsimp only
  by_cases hres : 0 < (matchLadder ib b.next_id p q (b.oppLadder ib)).qty
  · rw [if_pos hres]
  · rw [if_neg hres]

theorem add_market_fst (b : OrderBook) (q : Int) (ib : Bool) (h : ¬ q ≤ 0) :
    (add_market b q ib).1 = b.next_id := by
  unfold add_market
  rw [if_neg h]

theorem add_limit_trades (b : OrderBook) (p q : Int) (ib : Bool) (h : ¬ q ≤ 0) :
    (add_limit b p q ib).2.trades =
      b.trades ++ (matchLadder ib b.next_id p q (b.oppLadder ib)).trades := by
  unfold add_limit
  rw [if_neg h]
  dsimp only
  by_cases hres : 0 < (matchLadder ib b.next_id p q (b.oppLadder ib)).qty
  · rw [if_pos hres]
    dsimp only
    show (OrderBook.setSame _ ib _).trades = _
    rw [setSame_trades]
  · rw [if_neg hres]

theorem add_market_trades (b : OrderBook) (q : Int) (ib : Bool) (h : ¬ q ≤ 0) :
    (add_market b q ib).2.trades =
      b.trades ++
        (matchLadder ib b.next_id (mktPrice ib) q (b.oppLadder ib)).trades := by
  unfold add_market
  rw [if_neg h]

theorem add_market_opp (b : OrderBook) (q : Int) (ib : Bool) (h : ¬ q ≤ 0) :
    (add_market b q ib).2.oppLadder ib =
      (matchLadder ib b.next_id (mktPrice ib) q (b.oppLadder ib)).rest := by
  unfold add_market
  rw [if_neg h]
  dsimp only
  rw [setOpp_eq]
  rw [show ∀ c : OrderBook, c.oppLadder ib = c.sameLadder (!ib) from
    fun c => oppLadder_eq c ib]
  rw [sameLadder_setFull, sameLadder_setSame_self]

theorem add_limit_opp (b : OrderBook) (p q : Int) (ib : Bool) (h : ¬ q ≤ 0) :
    (add_limit b p q ib).2.oppLadder ib =
      (matchLadder ib b.next_id p q (b.oppLadder ib)).rest := by
  unfold add_limit
  rw [if_neg h]
  dsimp only
  rw [setOpp_eq]
  by_cases hres : 0 < (matchLadder ib b.next_id p q (b.oppLadder ib)).qty
  · rw [if_pos hres]
    dsimp only
    rw [show ∀ c : OrderBook, c.oppLadder ib = c.sameLadder (!ib) from
      fun c => oppLadder_eq c ib]
    rw [sameLadder_setIdx, sameLadder_setSame_other _ ib (!ib) _
      (fun hc => bool_ne_not ib hc.symm)]
    rw [sameLadder_setFull, sameLadder_setSame_self]
  · rw [if_neg hres]
    rw [show ∀ c : OrderBook, c.oppLadder ib = c.sameLadder (!ib) from
      fun c => oppLadder_eq c ib]
    rw [sameLadder_setFull, sameLadder_setSame_self]

theorem add_limit_same (b : OrderBook) (p q : Int) (ib : Bool) (h : ¬ q ≤ 0)
    (hres : 0 < (matchLadder ib b.next_id p q (b.oppLadder ib)).qty) :
    (add_limit b p q ib).2.sameLadder ib =
      ladderInsert (sideLt ib)
        ⟨b.next_id, p, (matchLadder ib b.next_id p q (b.oppLadder ib)).qty⟩
        (b.sameLadder ib) := by
  unfold add_limit
  rw [if_neg h]
  dsimp only
  rw [setOpp_eq, if_pos hres]
  dsimp only
  rw [sameLadder_setIdx, sameLadder_setSame_self]
  rw [sameLadder_setFull, sameLadder_setSame_other _ (!ib) ib _ (bool_ne_not ib)]

theorem add_limit_next_id (b : OrderBook) (p q : Int) (ib : Bool) (h : ¬ q ≤ 0) :
    (add_limit b p q ib).2.next_id = b.next_id + 1 := by
  unfold add_limit
  rw [if_neg h]
  dsimp only
  by_cases hres : 0 < (matchLadder ib b.next_id p q (b.oppLadder ib)).qty
  · rw [if_pos hres]
    dsimp only
    rw [setSame_next_id]
  · rw [if_neg hres]

/-- The inserted residual order itself is found at its price key. -/
theorem ladderFind_ladderInsert_self_order (lt : Int → Int → Bool) (o : Order) :
    ∀ L : Ladder, ∃ lvl', ladderFind o.price (ladderInsert lt o L) = some lvl' ∧
      o ∈ lvl' := by
  intro L
  induction L with
  | nil => exact ⟨[o], by rw [ladderInsert_nil]; exact ladderFind_cons_eq _ _ _, by simp⟩
  | cons hd rest ih =>
    obtain ⟨q, lvl⟩ := hd
    by_cases h1 : lt o.price q
    · refine ⟨[o], ?_, by simp⟩
      rw [ladderInsert_before lt o q lvl rest h1]
      exact ladderFind_cons_eq _ _ _
    · have h1' : lt o.price q = false := by simpa using h1
      by_cases h2 : o.price = q
      · refine ⟨lvl ++ [o], ?_, by simp⟩
        rw [ladderInsert_at lt o q lvl rest h1' h2]
        subst h2
        exact ladderFind_cons_eq _ _ _
      · obtain ⟨lvl', hf, hm⟩ := ih
        refine ⟨lvl', ?_, hm⟩
        rw [ladderInsert_after lt o q lvl rest h1' h2]
        rw [ladderFind_cons_ne _ _ _ _ (fun hc => h2 hc.symm)]
        exact hf

/-- A level that fails to cross stays failing further down the sorted
opposing ladder. -/
theorem cross_false_of_later (ib : Bool) (ip p₀ k : Int)
    (h : cross ib ip p₀ = false) (hk : sideLt (!ib) p₀ k = true) :
    cross ib ip k = false := by
  cases ib <;> simp [cross, sideLt] at h hk ⊢ <;> omega

/-- C4: every trade appended by matching (limit or market, either side)
executes at the resting order's price, and its buyer/seller fields are
assigned by side: the aggressor id sits on its own side and the passive id
is a resting order of the opposing ladder at exactly that price. -/
theorem C4_trade_records (ops : List Op) (p q : Int) (ib : Bool) (t : Trade)
    (ht : t ∈ ((add_limit (run ops).1 p q ib).2.trades.drop
            (run ops).1.trades.length) ∨
          t ∈ ((add_market (run ops).1 q ib).2.trades.drop
            (run ops).1.trades.length)) :
    ∃ o : Order, (∃ pl ∈ (run ops).1.oppLadder ib, o ∈ pl.2) ∧
      t.price = o.price ∧
      (ib = true → t.buyer_id = (run ops).1.next_id ∧ t.seller_id = o.id) ∧
      (ib = false → t.seller_id = (run ops).1.next_id ∧ t.buyer_id = o.id) := by
  have hWF := WF_run ops
  have hmem : ∃ ip, t ∈ (matchLadder ib (run ops).1.next_id ip q
      ((run ops).1.oppLadder ib)).trades := by
    rcases ht with ht | ht
    · by_cases hq : q ≤ 0
      · have hb : (add_limit (run ops).1 p q ib).2 = (run ops).1 := by
          unfold add_limit; rw [if_pos hq]
        rw [hb, List.drop_length] at ht
        exact absurd ht (List.not_mem_nil t)
      · rw [add_limit_trades _ p q ib hq, List.drop_left] at ht
        exact ⟨p, ht⟩
    · by_cases hq : q ≤ 0
      · have hb : (add_market (run ops).1 q ib).2 = (run ops).1 := by
          unfold add_market; rw [if_pos hq]
        rw [hb, List.drop_length] at ht
        exact absurd ht (List.not_mem_nil t)
      · rw [add_market_trades _ q ib hq, List.drop_left] at ht
        exact ⟨mktPrice ib, ht⟩
  obtain ⟨ip, hmem⟩ := hmem
  obtain ⟨pl, hpl, hprice, hinc, hrest⟩ :=
    matchLadder_trades ib (run ops).1.next_id ip ((run ops).1.oppLadder ib) q
      t hmem
  obtain ⟨o, ho, hid⟩ := List.mem_map.mp hrest
  have hopp : pl ∈ (run ops).1.sameLadder (!ib) := by
    rw [← oppLadder_eq]; exact hpl
  have hop : o.price = pl.1 := hWF.levelPrice (!ib) pl hopp o ho
  refine ⟨o, ⟨pl, hpl, ho⟩, by rw [hprice, hop], ?_, ?_⟩
  · intro hib
    subst hib
    simp only [incSideId, if_pos rfl] at hinc
    simp only [restingSideId, if_pos rfl] at hid
    exact ⟨hinc, hid.symm⟩
  · intro hib
    subst hib
    simp only [incSideId, Bool.false_eq_true, if_neg, not_false_iff] at hinc
    simp only [restingSideId, Bool.false_eq_true, if_neg, not_false_iff] at hid
    exact ⟨hinc, hid.symm⟩

/-- Witness for C4: the trade produced by a crossing bid against a
resting ask on a concrete book. -/
theorem C4_trade_records_witness :
    ∃ o : Order,
      (∃ pl ∈ (run [Op.limit 100 50 false]).1.oppLadder true, o ∈ pl.2) ∧
      (Trade.mk 2 1 100 30).price = o.price ∧
      (true = true → (Trade.mk 2 1 100 30).buyer_id =
          (run [Op.limit 100 50 false]).1.next_id ∧
        (Trade.mk 2 1 100 30).seller_id = o.id) ∧
      (true = false → (Trade.mk 2 1 100 30).seller_id =
          (run [Op.limit 100 50 false]).1.next_id ∧
        (Trade.mk 2 1 100 30).buyer_id = o.id) :=
  C4_trade_records [Op.limit 100 50 false] 100 30 true ⟨2, 1, 100, 30⟩
    (Or.inl (by decide))

/-- C5 (corrected): the claim as stated fails — an ask resting above the
`1e9` buy sentinel is skipped by a market buy that still has quantity,
because the "most aggressive possible price" is really the finite sentinel
`1e9` (resp. `0` for sells), not an absolute extreme.  Concretely: one ask
at price 2000000000 rests; a market buy of quantity 1 records no trade,
leaves that ask untouched, and drops its whole quantity as residual. -/
theorem C5_counterexample :
    (add_limit emptyBook 2000000000 1 false).2.asks ≠ [] ∧
    marketResidual (add_limit emptyBook 2000000000 1 false).2 1 true = 1 ∧
    (add_market (add_limit emptyBook 2000000000 1 false).2 1 true).2.trades = [] ∧
    (add_market (add_limit emptyBook 2000000000 1 false).2 1 true).2.asks =
      (add_limit emptyBook 2000000000 1 false).2.asks := by
  decide

/-- C5 (amended): for quantity q > 0, `add_market` behaves exactly as the
matching phase of a limit order at the synthetic sentinel price (`1e9`
for buys, `0` for sells) whose residual is dropped instead of rested: it
produces the same trades and the same opposing ladder as `add_limit` at
the sentinel price, consumes opposing levels best price first (the
remaining key list is a suffix of the original), and whenever residual
quantity is dropped every remaining opposing level fails the sentinel
crossing condition (price above `1e9` for buys / below `0` for sells) —
no opposing level within the sentinel bound is skipped. -/
theorem C5_market_sweep (ops : List Op) (q : Int) (ib : Bool) (hq : 0 < q) :
    (add_market (run ops).1 q ib).2.oppLadder ib =
      (matchLadder ib (run ops).1.next_id (mktPrice ib) q
        ((run ops).1.oppLadder ib)).rest ∧
    (add_market (run ops).1 q ib).2.trades =
      (add_limit (run ops).1 (mktPrice ib) q ib).2.trades ∧
    (add_market (run ops).1 q ib).2.oppLadder ib =
      (add_limit (run ops).1 (mktPrice ib) q ib).2.oppLadder ib ∧
    (((add_market (run ops).1 q ib).2.oppLadder ib).map Prod.fst) <:+
      (((run ops).1.oppLadder ib).map Prod.fst) ∧
    (0 < marketResidual (run ops).1 q ib →
      ∀ pl ∈ (add_market (run ops).1 q ib).2.oppLadder ib,
        cross ib (mktPrice ib) pl.1 = false) := by
  have h' : ¬ q ≤ 0 := by omega
  have hWF := WF_run ops
  refine ⟨add_market_opp _ q ib h', ?_, ?_, ?_, ?_⟩
  · rw [add_market_trades _ q ib h', add_limit_trades _ (mktPrice ib) q ib h']
  · rw [add_market_opp _ q ib h', add_limit_opp _ (mktPrice ib) q ib h']
  · rw [add_market_opp _ q ib h']
    exact matchLadder_keys_suffix ib (run ops).1.next_id (mktPrice ib) _ q
  · intro hres pl hpl
    rw [add_market_opp _ q ib h'] at hpl
    have hres' : 0 < (matchLadder ib (run ops).1.next_id (mktPrice ib) q
        ((run ops).1.oppLadder ib)).qty := by
      unfold marketResidual at hres
      rw [if_neg h'] at hres
      exact hres
    rcases matchLadder_stop_reason ib (run ops).1.next_id (mktPrice ib)
        ((run ops).1.oppLadder ib) q hres' with hnil | ⟨p₀, lvl₀, rest₀, hrest, hcr⟩
    · rw [hnil] at hpl
      exact absurd hpl (List.not_mem_nil pl)
    · rw [hrest] at hpl
      rcases List.mem_cons.mp hpl with hh | hh
      · rw [hh]
        exact hcr
      · -- later levels are even further from the sentinel
        have hsorted : ((matchLadder ib (run ops).1.next_id (mktPrice ib) q
            ((run ops).1.oppLadder ib)).rest.map Prod.fst).Pairwise
            (fun a c => sideLt (!ib) a c = true) := by
          apply List.Pairwise.sublist
            (matchLadder_keys_suffix ib (run ops).1.next_id (mktPrice ib)
              ((run ops).1.oppLadder ib) q).sublist
          rw [oppLadder_eq]
          exact hWF.sorted (!ib)
        rw [hrest] at hsorted
        simp only [List.map_cons, List.pairwise_cons] at hsorted
        have hlt := hsorted.1 pl.1 (List.mem_map.mpr ⟨pl, hh, rfl⟩)
        exact cross_false_of_later ib (mktPrice ib) p₀ pl.1 hcr hlt

/-- Witness for C5: the amended market-order equivalence on a concrete
book. -/
theorem C5_market_sweep_witness :
    (0 : Int) < 3 ∧
    (add_market (run [Op.limit 100 5 false]).1 3 true).2.oppLadder true =
      (matchLadder true (run [Op.limit 100 5 false]).1.next_id (mktPrice true) 3
        ((run [Op.limit 100 5 false]).1.oppLadder true)).rest :=
  ⟨by decide, (C5_market_sweep [Op.limit 100 5 false] 3 true (by decide)).1⟩

/-- C10: `add_limit` validates only the quantity, never the price: for any
price whatsoever (zero, negative, or above the market-buy sentinel) and
any q > 0, the order is accepted with the fresh nonzero id `next_id`
(resting nowhere before the call), matching runs, and any positive
residual rests at exactly that price on the submitted side. -/
theorem C10_no_price_validation (ops : List Op) (p q : Int) (ib : Bool)
    (hq : 0 < q) :
    (add_limit (run ops).1 p q ib).1 = (run ops).1.next_id ∧
    (add_limit (run ops).1 p q ib).1 ≠ 0 ∧
    (add_limit (run ops).1 p q ib).1 ∉ bookIds (run ops).1 ∧
    (add_limit (run ops).1 p q ib).2.trades =
      (run ops).1.trades ++ (matchLadder ib (run ops).1.next_id p q
        ((run ops).1.oppLadder ib)).trades ∧
    (0 < (matchLadder ib (run ops).1.next_id p q
        ((run ops).1.oppLadder ib)).qty →
      ∃ lvl, ladderFind p ((add_limit (run ops).1 p q ib).2.sameLadder ib) =
          some lvl ∧
        (⟨(run ops).1.next_id, p,
          (matchLadder ib (run ops).1.next_id p q
            ((run ops).1.oppLadder ib)).qty⟩ : Order) ∈ lvl) := by
  have h' : ¬ q ≤ 0 := by omega
  have hWF := WF_run ops
  refine ⟨add_limit_fst _ p q ib h', ?_, ?_, add_limit_trades _ p q ib h', ?_⟩
  · rw [add_limit_fst _ p q ib h']
    have := hWF.nextPos
    omega
  · rw [add_limit_fst _ p q ib h']
    intro hc
    have := hWF.idsLt _ hc
    omega
  · intro hres
    rw [add_limit_same _ p q ib h' hres]
    exact ladderFind_ladderInsert_self_order (sideLt ib)
      ⟨(run ops).1.next_id, p,
        (matchLadder ib (run ops).1.next_id p q ((run ops).1.oppLadder ib)).qty⟩
      ((run ops).1.sameLadder ib)

/-- Witness for C10: a negative-price bid is accepted and rests at its
own (negative) price. -/
theorem C10_no_price_validation_witness :
    (0 : Int) < 3 ∧
    (add_limit (run []).1 (-5) 3 true).1 = (run []).1.next_id ∧
    (∃ lvl, ladderFind (-5) ((add_limit (run []).1 (-5) 3 true).2.sameLadder true) =
        some lvl ∧
      (⟨(run []).1.next_id, -5,
        (matchLadder true (run []).1.next_id (-5) 3
          ((run []).1.oppLadder true)).qty⟩ : Order) ∈ lvl) :=
  ⟨by decide, (C10_no_price_validation [] (-5) 3 true (by decide)).1,
    (C10_no_price_validation [] (-5) 3 true (by decide)).2.2.2.2 (by decide)⟩

/-! ### Cancel semantics -/

theorem cancel_true_index (b : OrderBook) (id : Nat)
    (h : (cancel b id).1 = true) :
    (cancel b id).2.order_index = idxErase id b.order_index := by
  unfold cancel at h ⊢
  rcases hf : idxFind b.order_index id with _ | ⟨price, is_bid⟩
  · rw [hf] at h
    exact absurd h (by simp)
  · rw [hf] at h
    dsimp only at h ⊢
    rcases hlf : ladderFind price (if is_bid then b.bids else b.asks) with _ | lvl
    · rw [hlf] at h
    · rw [hlf] at h
      dsimp only at h ⊢
      by_cases hfi : (lvl.find? (fun o => o.id == id)).isSome = true
      · rw [if_pos hfi]
      · rw [if_neg hfi] at h
        exact absurd h (by simp)

theorem cancel_true_iff (b : OrderBook) (id : Nat) (h : WF b) :
    (cancel b id).1 = true ↔ ∃ v, idxFind b.order_index id = some v := by
  constructor
  · intro ht
    rcases hf : idxFind b.order_index id with _ | v
    · unfold cancel at ht
      rw [hf] at ht
      exact absurd ht (by simp)
    · exact ⟨v, rfl⟩
  · rintro ⟨v, hv⟩
    obtain ⟨price, is_bid⟩ := v
    have hmem := idxFind_some_mem b.order_index id (price, is_bid) hv
    obtain ⟨lvl, hlf, hml⟩ := h.idxSound (id, price, is_bid) hmem
    unfold OrderBook.sameLadder at hlf
    unfold cancel
    rw [hv]
    dsimp only at hlf ⊢
    rw [hlf]
    dsimp only
    have hfi : (lvl.find? (fun o => o.id == id)).isSome = true := by
      rw [List.find?_isSome]
      obtain ⟨o, ho, hid⟩ := List.mem_map.mp hml
      exact ⟨o, ho, by simp [hid]⟩
    rw [if_pos hfi]

theorem cancel_false_unchanged (b : OrderBook) (id : Nat) (h : WF b)
    (hf : (cancel b id).1 = false) : (cancel b id).2 = b := by
  rcases hv : idxFind b.order_index id with _ | v
  · unfold cancel
    rw [hv]
  · have := (cancel_true_iff b id h).mpr ⟨v, hv⟩
    rw [this] at hf
    exact Bool.noConfusion hf

theorem cancel_none_false (b : OrderBook) (id : Nat)
    (h : idxFind b.order_index id = none) : (cancel b id).1 = false := by
  unfold cancel
  rw [h]

theorem cancel_again_false (b : OrderBook) (id : Nat)
    (ht : (cancel b id).1 = true) : (cancel (cancel b id).2 id).1 = false := by
  apply cancel_none_false
  rw [cancel_true_index b id ht]
  exact idxFind_idxErase_self _ _

/-- C8: in every reachable state, `cancel id` succeeds exactly when the id
is present in the order index; a failed cancel leaves the whole state
unchanged; and cancelling the same id twice succeeds at most once. -/
theorem C8_cancel_semantics (ops : List Op) (id : Nat) :
    ((cancel (run ops).1 id).1 = true ↔
      ∃ v, idxFind (run ops).1.order_index id = some v) ∧
    ((cancel (run ops).1 id).1 = false →
      (cancel (run ops).1 id).2 = (run ops).1) ∧
    ((cancel (run ops).1 id).1 = true →
      (cancel (cancel (run ops).1 id).2 id).1 = false) :=
  ⟨cancel_true_iff (run ops).1 id (WF_run ops),
    cancel_false_unchanged (run ops).1 id (WF_run ops),
    cancel_again_false (run ops).1 id⟩

/-- Witness for C8: a resting order cancels successfully; the second
cancel of the same id fails on the same concrete run. -/
theorem C8_cancel_semantics_witness :
    (cancel (run [Op.limit 100 5 true]).1 1).1 = true ∧
    (cancel (cancel (run [Op.limit 100 5 true]).1 1).2 1).1 = false := by
  have h := C8_cancel_semantics [Op.limit 100 5 true] 1
  have h1 : (cancel (run [Op.limit 100 5 true]).1 1).1 = true :=
    h.1.mpr ⟨(100, true), by decide⟩
  exact ⟨h1, h.2.2 h1⟩

/-! ### Freshness of ids across later operations -/

theorem mem_ladderIds_iff (x : Nat) :
    ∀ L : Ladder, x ∈ ladderIds L ↔ ∃ pl ∈ L, x ∈ pl.2.map Order.id := by
  intro L
  induction L with
  | nil => simp
  | cons hd rest ih =>
    simp only [ladderIds_cons, List.mem_append, ih, List.mem_cons]
    constructor
    · rintro (h | ⟨pl, hpl, hx⟩)
      · exact ⟨hd, Or.inl rfl, h⟩
      · exact ⟨pl, Or.inr hpl, hx⟩
    · rintro ⟨pl, hpl | hpl, hx⟩
      · subst hpl; exact Or.inl hx
      · exact Or.inr ⟨pl, hpl, hx⟩

theorem ladderFind_ids_sub (p : Int) (x : Nat) :
    ∀ L : Ladder, ∀ lvl, ladderFind p L = some lvl → x ∈ lvl.map Order.id →
      x ∈ ladderIds L := by
  intro L lvl hf hx
  simp only [ladderFind, Option.map_eq_some'] at hf
  obtain ⟨pl, hfind, hpl⟩ := hf
  have hmem := List.mem_of_find?_eq_some hfind
  rw [mem_ladderIds_iff]
  exact ⟨pl, hmem, by rw [hpl]; exact hx⟩

theorem idxKeys_sub_bookIds (b : OrderBook) (h : WF b) (x : Nat)
    (hx : x ∈ idxKeys b.order_index) : x ∈ bookIds b := by
  obtain ⟨e, he, hex⟩ := List.mem_map.mp hx
  obtain ⟨lvl, hlf, hml⟩ := h.idxSound e he
  subst hex
  exact mem_bookIds_of_side b e.2.2 e.1 (ladderFind_ids_sub e.2.1 e.1 _ lvl hlf hml)

theorem mem_idxKeys_iff (x : Nat) (idx : IndexT) :
    x ∈ idxKeys idx ↔ ∃ e ∈ idx, e.1 = x := by
  simp [idxKeys]

theorem add_limit_ids_sub (b : OrderBook) (p q : Int) (ib : Bool) (x : Nat)
    (hx : x ∈ bookIds (add_limit b p q ib).2 ∨
      x ∈ idxKeys (add_limit b p q ib).2.order_index) :
    (x ∈ bookIds b ∨ x ∈ idxKeys b.order_index) ∨ x = b.next_id := by
  unfold add_limit at hx
  by_cases hq : q ≤ 0
  · rw [if_pos hq] at hx
    exact Or.inl hx
  · rw [if_neg hq] at hx
    dsimp only at hx
    rw [oppLadder_eq, setOpp_eq] at hx
    have hsub : List.Sublist
        (ladderIds (matchLadder ib b.next_id p q (b.sameLadder (!ib))).rest)
        (ladderIds (b.sameLadder (!ib))) := by
      rw [← matchLadder_ids ib b.next_id p (b.sameLadder (!ib)) q]
      exact List.sublist_append_right _ _
    by_cases hres : 0 < (matchLadder ib b.next_id p q (b.sameLadder (!ib))).qty
    · rw [if_pos hres] at hx
      dsimp only at hx
      rcases hx with hx | hx
      · rcases (mem_bookIds_setSame _ ib _ x).mp hx with h1 | h1
        · have hperm := ladderIds_ladderInsert (sideLt ib)
            ⟨b.next_id, p, (matchLadder ib b.next_id p q (b.sameLadder (!ib))).qty⟩
            (({ b.setSame (!ib)
                (matchLadder ib b.next_id p q (b.sameLadder (!ib))).rest with
              trades := b.trades ++
                (matchLadder ib b.next_id p q (b.sameLadder (!ib))).trades,
              order_index := idxEraseMany
                (matchLadder ib b.next_id p q (b.sameLadder (!ib))).removed
                b.order_index,
              next_id := b.next_id + 1 } : OrderBook).sameLadder ib)
          rcases List.mem_cons.mp (hperm.mem_iff.mp h1) with h2 | h2
          · exact Or.inr h2
          · rw [sameLadder_setFull, sameLadder_setSame_other _ (!ib) ib _
              (bool_ne_not ib)] at h2
            exact Or.inl (Or.inl (mem_bookIds_of_side b ib x h2))
        · rw [sameLadder_setFull, sameLadder_setSame_self] at h1
          exact Or.inl (Or.inl (mem_bookIds_of_side b (!ib) x
            (hsub.mem h1)))
      · rcases (mem_idxKeys_iff x _).mp hx with ⟨e, he, hex⟩
        rcases (mem_idxInsert e _ _ _ _).mp he with he1 | ⟨he1, _⟩
        · subst he1
          exact Or.inr hex.symm
        · obtain ⟨he2, _⟩ := (mem_idxEraseMany e _ _).mp he1
          exact Or.inl (Or.inr ((mem_idxKeys_iff x _).mpr ⟨e, he2, hex⟩))
    · rw [if_neg hres] at hx
      rcases hx with hx | hx
      · rcases (mem_bookIds_setSame _ (!ib) _ x).mp hx with h1 | h1
        · exact Or.inl (Or.inl (mem_bookIds_of_side b (!ib) x (hsub.mem h1)))
        · rw [Bool.not_not] at h1
          exact Or.inl (Or.inl (mem_bookIds_of_side b ib x h1))
      · rcases (mem_idxKeys_iff x _).mp hx with ⟨e, he, hex⟩
        obtain ⟨he2, _⟩ := (mem_idxEraseMany e _ _).mp he
        exact Or.inl (Or.inr ((mem_idxKeys_iff x _).mpr ⟨e, he2, hex⟩))

theorem add_market_ids_sub (b : OrderBook) (q : Int) (ib : Bool) (x : Nat)
    (hx : x ∈ bookIds (add_market b q ib).2 ∨
      x ∈ idxKeys (add_market b q ib).2.order_index) :
    x ∈ bookIds b ∨ x ∈ idxKeys b.order_index := by
  unfold add_market at hx
  by_cases hq : q ≤ 0
  · rw [if_pos hq] at hx
    exact hx
  · rw [if_neg hq] at hx
    dsimp only at hx
    rw [oppLadder_eq, setOpp_eq] at hx
    have hsub : List.Sublist
        (ladderIds (matchLadder ib b.next_id (mktPrice ib) q
          (b.sameLadder (!ib))).rest)
        (ladderIds (b.sameLadder (!ib))) := by
      rw [← matchLadder_ids ib b.next_id (mktPrice ib) (b.sameLadder (!ib)) q]
      exact List.sublist_append_right _ _
    rcases hx with hx | hx
    · rcases (mem_bookIds_setSame _ (!ib) _ x).mp hx with h1 | h1
      · exact Or.inl (mem_bookIds_of_side b (!ib) x (hsub.mem h1))
      · rw [Bool.not_not] at h1
        exact Or.inl (mem_bookIds_of_side b ib x h1)
    · rcases (mem_idxKeys_iff x _).mp hx with ⟨e, he, hex⟩
      obtain ⟨he2, _⟩ := (mem_idxEraseMany e _ _).mp he
      exact Or.inr ((mem_idxKeys_iff x _).mpr ⟨e, he2, hex⟩)

theorem cancel_ids_sub (b : OrderBook) (id : Nat) (x : Nat)
    (hx : x ∈ bookIds (cancel b id).2 ∨
      x ∈ idxKeys (cancel b id).2.order_index) :
    x ∈ bookIds b ∨ x ∈ idxKeys b.order_index := by
  unfold cancel at hx
  rcases hf : idxFind b.order_index id with _ | ⟨price, is_bid⟩
  · rw [hf] at hx
    exact hx
  · rw [hf] at hx
    dsimp only at hx
    rcases hlf : ladderFind price (if is_bid then b.bids else b.asks) with _ | lvl
    · rw [hlf] at hx
      dsimp only at hx
      rcases hx with hx | hx
      · exact Or.inl hx
      · rcases (mem_idxKeys_iff x _).mp hx with ⟨e, he, hex⟩
        obtain ⟨he2, _⟩ := (mem_idxErase e _ _).mp he
        exact Or.inr ((mem_idxKeys_iff x _).mpr ⟨e, he2, hex⟩)
    · rw [hlf] at hx
      dsimp only at hx
      by_cases hfi : (lvl.find? (fun o => o.id == id)).isSome = true
      · rw [if_pos hfi] at hx
        dsimp only at hx
        rcases hx with hx | hx
        · cases is_bid
          · rcases List.mem_append.mp hx with h1 | h1
            · exact Or.inl (List.mem_append_left _ h1)
            · exact Or.inl (List.mem_append_right _
                ((ladderIds_ladderCancel price id b.asks).mem h1))
          · rcases List.mem_append.mp hx with h1 | h1
            · exact Or.inl (List.mem_append_left _
                ((ladderIds_ladderCancel price id b.bids).mem h1))
            · exact Or.inl (List.mem_append_right _ h1)
        · rcases (mem_idxKeys_iff x _).mp hx with ⟨e, he, hex⟩
          obtain ⟨he2, _⟩ := (mem_idxErase e _ _).mp he
          exact Or.inr ((mem_idxKeys_iff x _).mpr ⟨e, he2, hex⟩)
      · rw [if_neg hfi] at hx
        dsimp only at hx
        rcases hx with hx | hx
        · exact Or.inl hx
        · rcases (mem_idxKeys_iff x _).mp hx with ⟨e, he, hex⟩
          obtain ⟨he2, _⟩ := (mem_idxErase e _ _).mp he
          exact Or.inr ((mem_idxKeys_iff x _).mpr ⟨e, he2, hex⟩)

theorem add_market_next_id (b : OrderBook) (q : Int) (ib : Bool) :
    (add_market b q ib).2.next_id = b.next_id ∨
      (add_market b q ib).2.next_id = b.next_id + 1 := by
  unfold add_market
  by_cases hq : q ≤ 0
  · rw [if_pos hq]
    exact Or.inl rfl
  · rw [if_neg hq]
    dsimp only
    exact Or.inr rfl

theorem add_limit_next_mono (b : OrderBook) (p q : Int) (ib : Bool) :
    b.next_id ≤ (add_limit b p q ib).2.next_id := by
  by_cases hq : q ≤ 0
  · unfold add_limit
    rw [if_pos hq]
  · rw [add_limit_next_id b p q ib hq]
    omega

theorem cancel_next_id (b : OrderBook) (id : Nat) :
    (cancel b id).2.next_id = b.next_id := by
  unfold cancel
  rcases hf : idxFind b.order_index id with _ | ⟨price, is_bid⟩
  · rfl
  · dsimp only
    rcases hlf : ladderFind price (if is_bid then b.bids else b.asks) with _ | lvl
    · rfl
    · dsimp only
      by_cases hfi : (lvl.find? (fun o => o.id == id)).isSome = true
      · rw [if_pos hfi]
        cases is_bid <;> rfl
      · rw [if_neg hfi]

theorem fresh_step (s : OrderBook × Acct) (op : Op) (x : Nat)
    (h1 : x ∉ bookIds s.1) (h2 : x ∉ idxKeys s.1.order_index)
    (h3 : x < s.1.next_id) :
    x ∉ bookIds (step s op).1 ∧ x ∉ idxKeys (step s op).1.order_index ∧
      x < (step s op).1.next_id := by
  cases op with
  | limit p q ib =>
    refine ⟨?_, ?_, ?_⟩
    · intro hc
      rcases add_limit_ids_sub s.1 p q ib x (Or.inl hc) with (h | h) | h
      · exact h1 h
      · exact h2 h
      · omega
    · intro hc
      rcases add_limit_ids_sub s.1 p q ib x (Or.inr hc) with (h | h) | h
      · exact h1 h
      · exact h2 h
      · omega
    · have := add_limit_next_mono s.1 p q ib
      show x < (add_limit s.1 p q ib).2.next_id
      omega
  | market q ib =>
    refine ⟨?_, ?_, ?_⟩
    · intro hc
      rcases add_market_ids_sub s.1 q ib x (Or.inl hc) with h | h
      · exact h1 h
      · exact h2 h
    · intro hc
      rcases add_market_ids_sub s.1 q ib x (Or.inr hc) with h | h
      · exact h1 h
      · exact h2 h
    · show x < (add_market s.1 q ib).2.next_id
      rcases add_market_next_id s.1 q ib with h | h <;> omega
  | cancel id =>
    refine ⟨?_, ?_, ?_⟩
    · intro hc
      rcases cancel_ids_sub s.1 id x (Or.inl hc) with h | h
      · exact h1 h
      · exact h2 h
    · intro hc
      rcases cancel_ids_sub s.1 id x (Or.inr hc) with h | h
      · exact h1 h
      · exact h2 h
    · show x < (cancel s.1 id).2.next_id
      rw [cancel_next_id]
      exact h3
  | clear =>
    refine ⟨?_, ?_, ?_⟩
    · intro hc
      simp [step, OrderBook.clear, bookIds_def] at hc
    · intro hc
      simp [step, OrderBook.clear, idxKeys] at hc
    · exact h3

theorem fresh_foldl (ops : List Op) :
    ∀ (s : OrderBook × Acct) (x : Nat),
      x ∉ bookIds s.1 → x ∉ idxKeys s.1.order_index → x < s.1.next_id →
      x ∉ bookIds (ops.foldl step s).1 ∧
        x ∉ idxKeys (ops.foldl step s).1.order_index ∧
        x < (ops.foldl step s).1.next_id := by
  induction ops with
  | nil => intro s x h1 h2 h3; exact ⟨h1, h2, h3⟩
  | cons op rest ih =>
    intro s x h1 h2 h3
    obtain ⟨g1, g2, g3⟩ := fresh_step s op x h1 h2 h3
    exact ih (step s op) x g1 g2 g3

theorem add_market_next_id_acc (b : OrderBook) (q : Int) (ib : Bool)
    (hq : ¬ q ≤ 0) : (add_market b q ib).2.next_id = b.next_id + 1 := by
  unfold add_market
  rw [if_neg hq]

/-- C6: a market order never rests: its returned id appears in neither
ladder nor in the order index, in the immediate post-state and in every
state reachable from it by any further operations. -/
theorem C6_market_never_rests (ops₁ ops₂ : List Op) (q : Int) (ib : Bool)
    (a : Acct) :
    (add_market (run ops₁).1 q ib).1 ∉
        bookIds (add_market (run ops₁).1 q ib).2 ∧
    (add_market (run ops₁).1 q ib).1 ∉
        idxKeys (add_market (run ops₁).1 q ib).2.order_index ∧
    (add_market (run ops₁).1 q ib).1 ∉
        bookIds (ops₂.foldl step ((add_market (run ops₁).1 q ib).2, a)).1 ∧
    (add_market (run ops₁).1 q ib).1 ∉
        idxKeys (ops₂.foldl step
          ((add_market (run ops₁).1 q ib).2, a)).1.order_index := by
  have hWF := WF_run ops₁
  have base : (add_market (run ops₁).1 q ib).1 ∉
        bookIds (add_market (run ops₁).1 q ib).2 ∧
      (add_market (run ops₁).1 q ib).1 ∉
        idxKeys (add_market (run ops₁).1 q ib).2.order_index ∧
      (add_market (run ops₁).1 q ib).1 <
        (add_market (run ops₁).1 q ib).2.next_id := by
    by_cases hq : q ≤ 0
    · have h0 : add_market (run ops₁).1 q ib = (0, (run ops₁).1) := by
        unfold add_market
        rw [if_pos hq]
      rw [h0]
      refine ⟨?_, ?_, hWF.nextPos⟩
      · intro hc
        have := hWF.idsPos 0 hc
        omega
      · intro hc
        have := hWF.idsPos 0 (idxKeys_sub_bookIds _ hWF 0 hc)
        omega
    · rw [add_market_fst _ q ib hq, add_market_next_id_acc _ q ib hq]
      refine ⟨?_, ?_, by omega⟩
      · intro hc
        rcases add_market_ids_sub (run ops₁).1 q ib _ (Or.inl hc) with h | h
        · exact absurd (hWF.idsLt _ h) (by omega)
        · exact absurd (hWF.idsLt _ (idxKeys_sub_bookIds _ hWF _ h)) (by omega)
      · intro hc
        rcases add_market_ids_sub (run ops₁).1 q ib _ (Or.inr hc) with h | h
        · exact absurd (hWF.idsLt _ h) (by omega)
        · exact absurd (hWF.idsLt _ (idxKeys_sub_bookIds _ hWF _ h)) (by omega)
  obtain ⟨b1, b2, b3⟩ := base
  obtain ⟨g1, g2, _⟩ :=
    fresh_foldl ops₂ ((add_market (run ops₁).1 q ib).2, a) _ b1 b2 b3
  exact ⟨b1, b2, g1, g2⟩

/-- Witness for C6: the id returned by a concrete market order is absent
from the index after the call and after a further limit submission. -/
theorem C6_market_never_rests_witness :
    (2 : Nat) ∉ idxKeys (add_market (run [Op.limit 100 5 false]).1 2 true).2.order_index ∧
    (2 : Nat) ∉ idxKeys (([Op.limit 100 5 true] : List Op).foldl step
      ((add_market (run [Op.limit 100 5 false]).1 2 true).2,
        emptyAcct)).1.order_index := by
  have h := C6_market_never_rests [Op.limit 100 5 false] [Op.limit 100 5 true]
    2 true emptyAcct
  have hid : (add_market (run [Op.limit 100 5 false]).1 2 true).1 = 2 := by
    decide
  rw [hid] at h
  exact ⟨h.2.1, h.2.2.2⟩

/-! ### Linear cancel-scan cost on a deep price level -/

/-- The FIFO level holding `n` unit orders with consecutive ids starting
at `s`, all at price 100. -/
def fifoLevel : Nat → Nat → Level
  | _, 0 => []
  | s, n + 1 => ⟨s, 100, 1⟩ :: fifoLevel (s + 1) n

/-- The order index after those submissions (most recent first). -/
def fifoIdx : Nat → IndexT
  | 0 => []
  | n + 1 => (n + 1, 100, true) :: fifoIdx n

/-- The book reached by submitting `n` unit bids at price 100. -/
def fifoBook : Nat → OrderBook
  | 0 => emptyBook
  | n + 1 => ⟨[(100, fifoLevel 1 (n + 1))], [], fifoIdx (n + 1), [], n + 2⟩

theorem fifoLevel_snoc : ∀ (n s : Nat),
    fifoLevel s n ++ [⟨s + n, 100, 1⟩] = fifoLevel s (n + 1) := by
  intro n
  induction n with
  | zero => intro s; simp [fifoLevel]
  | succ m ih =>
    intro s
    show (⟨s, 100, 1⟩ : Order) :: (fifoLevel (s + 1) m ++ [⟨s + (m + 1), 100, 1⟩]) = _
    rw [show s + (m + 1) = (s + 1) + m by omega, ih (s + 1)]
    rfl

theorem fifoIdx_erase : ∀ (n j : Nat), n < j → idxErase j (fifoIdx n) = fifoIdx n := by
  intro n
  induction n with
  | zero => intro j _; rfl
  | succ m ih =>
    intro j hj
    show List.filter _ ((m + 1, 100, true) :: fifoIdx m) = _
    rw [List.filter_cons]
    have hne : (((m + 1: Nat), (100 : Int), true).1 == j) = false := by
      simp only [beq_eq_false_iff_ne, ne_eq]
      omega
    rw [hne]
    simp only [Bool.not_false, if_pos]
    rw [show List.filter (fun e => !(e.1 == j)) (fifoIdx m) =
      idxErase j (fifoIdx m) from rfl]
    rw [ih j (by omega)]
    rfl

theorem idxEraseMany_nil (idx : IndexT) : idxEraseMany [] idx = idx := by
  simp [idxEraseMany]

theorem add_limit_fifo_all : ∀ k : Nat,
    (add_limit (fifoBook k) 100 1 true).2 = fifoBook (k + 1) := by
  intro k
  cases k with
  | zero => decide
  | succ m =>
    unfold add_limit
    rw [if_neg (by omega : ¬ (1 : Int) ≤ 0)]
    dsimp only
    rw [show (fifoBook (m + 1)).oppLadder true = [] from rfl, matchLadder_nil]
    dsimp only
    rw [if_pos (by omega : (0 : Int) < 1)]
    have hb : ladderInsert (sideLt true) ⟨m + 2, 100, 1⟩
        [(100, fifoLevel 1 (m + 1))] = [(100, fifoLevel 1 (m + 2))] := by
      rw [ladderInsert_at (sideLt true) ⟨m + 2, 100, 1⟩ 100 (fifoLevel 1 (m + 1))
        [] (by dsimp only; decide) rfl]
      rw [show (⟨m + 2, 100, 1⟩ : Order) = ⟨1 + (m + 1), 100, 1⟩ by
        have h : m + 2 = 1 + (m + 1) := by omega
        rw [h]]
      rw [fifoLevel_snoc (m + 1) 1]
    have hi : idxInsert (m + 2) 100 true (idxEraseMany [] (fifoIdx (m + 1))) =
        fifoIdx (m + 2) := by
      rw [idxEraseMany_nil]
      show (m + 2, 100, true) :: idxErase (m + 2) (fifoIdx (m + 1)) = _
      rw [fifoIdx_erase (m + 1) (m + 2) (by omega)]
      rfl
    show OrderBook.mk
        (ladderInsert (sideLt true) ⟨m + 2, 100, 1⟩ [(100, fifoLevel 1 (m + 1))])
        []
        (idxInsert (m + 2) 100 true (idxEraseMany [] (fifoIdx (m + 1))))
        []
        (m + 3)
      = fifoBook (m + 1 + 1)
    rw [hb, hi]
    rfl

theorem foldl_fifo : ∀ (n : Nat) (s : OrderBook × Acct) (k : Nat), s.1 = fifoBook k →
    ((List.replicate n (Op.limit 100 1 true)).foldl step s).1 = fifoBook (k + n) := by
  intro n
  induction n with
  | zero => intro s k hs; simpa using hs
  | succ m ih =>
    intro s k hs
    rw [List.replicate_succ, List.foldl_cons]
    rw [show k + (m + 1) = (k + 1) + m by omega]
    apply ih
    show (add_limit s.1 100 1 true).2 = fifoBook (k + 1)
    rw [hs]
    exact add_limit_fifo_all k

theorem fifo_find_isSome : ∀ (k s : Nat),
    ((fifoLevel s (k + 1)).find? (fun o => o.id == s + k)).isSome = true := by
  intro k
  induction k with
  | zero =>
    intro s
    show ((⟨s, 100, 1⟩ :: fifoLevel (s + 1) 0 : Level).find? _).isSome = true
    rw [List.find?_cons_of_pos _ (by simp)]
    rfl
  | succ m ih =>
    intro s
    show ((⟨s, 100, 1⟩ :: fifoLevel (s + 1) (m + 1) : Level).find? _).isSome = true
    rw [List.find?_cons_of_neg _ (by simp)]
    rw [show s + (m + 1) = (s + 1) + m by omega]
    exact ih (s + 1)

theorem fifo_findIdx : ∀ (k s : Nat),
    (fifoLevel s (k + 1)).findIdx (fun o => o.id == s + k) = k := by
  intro k
  induction k with
  | zero =>
    intro s
    show (⟨s, 100, 1⟩ :: fifoLevel (s + 1) 0 : Level).findIdx _ = 0
    rw [List.findIdx_cons]
    simp
  | succ m ih =>
    intro s
    show (⟨s, 100, 1⟩ :: fifoLevel (s + 1) (m + 1) : Level).findIdx _ = m + 1
    rw [List.findIdx_cons]
    have : ((⟨s, 100, 1⟩ : Order).id == s + (m + 1)) = false := by
      simp
    rw [this]
    simp only [cond_false]
    rw [show s + (m + 1) = (s + 1) + m by omega]
    rw [ih (s + 1)]

theorem cancelCost_fifo (n : Nat) : cancelCost (fifoBook (n + 1)) (n + 1) = n + 1 := by
  unfold cancelCost
  have h1 : idxFind (fifoBook (n + 1)).order_index (n + 1) = some (100, true) := by
    show ((((n + 1 : Nat), (100 : Int), true) :: fifoIdx n).find?
      (fun e => e.1 == n + 1)).map _ = _
    rw [List.find?_cons_of_pos _ (by simp)]
    rfl
  rw [h1]
  dsimp only
  rw [if_pos rfl]
  have h2 : ladderFind 100 (fifoBook (n + 1)).bids = some (fifoLevel 1 (n + 1)) := by
    show ladderFind 100 [(100, fifoLevel 1 (n + 1))] = _
    exact ladderFind_cons_eq _ _ _
  rw [h2]
  dsimp only
  have h3 := fifo_find_isSome n 1
  rw [show (1 : Nat) + n = n + 1 by omega] at h3
  rw [if_pos h3]
  have h4 := fifo_findIdx n 1
  rw [show (1 : Nat) + n = n + 1 by omega] at h4
  rw [h4]

/-- C9 (the code, not the claim): cancelling the most recent of `n + 1`
resting orders at one price makes `OrderBook::cancel` examine all `n + 1`
entries of the price level's deque — the scan cost grows linearly with the
level's depth, so cancellation is not O(1) and does traverse the
price-level queue, contradicting the claim (which correctly states the
intended design). -/
theorem C9_cancel_scan_linear (n : Nat) :
    cancelCost (run (List.replicate (n + 1) (Op.limit 100 1 true))).1 (n + 1) =
      n + 1 := by
  have hrun := foldl_fifo (n + 1) (emptyBook, emptyAcct) 0 rfl
  rw [show (0 : Nat) + (n + 1) = n + 1 by omega] at hrun
  show cancelCost ((List.replicate (n + 1) (Op.limit 100 1 true)).foldl step
    (emptyBook, emptyAcct)).1 (n + 1) = n + 1
  rw [hrun]
  exact cancelCost_fifo n

end LOB
